import Mathlib

/-!
Verification development for the plz-cli stacked-review command-line tool.

The development shallowly embeds the parts of the Go sources that the
checked properties are about:

* the data model and status classifier of the `stack` package
  (`Revision`, `Review`, `CommitInfo`, `CommitInfo.Status`);
* `stack.Load`, the stack resolver, including its first-parent walk,
  the starting-revision determination and the linked-revision phase;
* `actions.Sync`, the stack synchronizer (the variant of the sources
  that carries the merged-review conflict check and the worktree reset);
* the commit graph renderer of `actions/switch.go` (`graph`), in
  particular `updateColumns` and `outputCollapsingLine`.

Go slice indexing without a bounds check is embedded as an explicit
`aborted` outcome (a Go runtime abort is not an error return), network
services and the git object store are embedded as pure environments,
and Go `map[int]int` reads of missing keys yield 0, which the mapping
functions below reproduce by total functions with default 0.
-/

namespace Plz

/-! ## Data model of the stack package -/

/-- Revision, as in the stack package GraphQL bindings. -/
structure Revision where
  reviewID : String
  number : Int
  baseBranch : String
  baseCommitSHA : String
  headCommitSHA : String
deriving DecidableEq, Repr

/-- ReviewStatus: deleted, merged or open. The Go constant
`ReviewStatusOpen` is rendered `opened` because `open` is a Lean keyword. -/
inductive ReviewStatus where
  | deleted
  | merged
  | opened
deriving DecidableEq, Repr

/-- The baseReview struct: review metadata shared by the queries. -/
structure BaseReview where
  id : String
  gitHubPR : Int
  headBranch : String
  status : ReviewStatus
  outdated : Bool
deriving DecidableEq, Repr

/-- Review: baseReview plus the latest revision and the optional local
revision, exactly as the `Review` struct of the stack package. -/
structure Review where
  base : BaseReview
  latestRevision : Revision
  localRevision : Option Revision
deriving DecidableEq, Repr

/-- CommitStatus: the four values returned by the status classifier. -/
inductive CommitStatus where
  | behind
  | current
  | modified
  | new
deriving DecidableEq, Repr

/-- Commit: hash, ordered parent hashes, and the review ID extracted
from the message trailer by readReviewIDFromCommitMessage (the empty
string when the message has no trailer). The trailer extraction itself
is a pure function of the message and none of the checked claims is
about it, so the extracted ID stands in for the message. -/
structure Commit where
  hash : String
  parentHashes : List String
  reviewID : String
deriving DecidableEq, Repr

/-- CommitInfo pairs a commit with at most one review. -/
structure CommitInfo where
  commit : Commit
  review : Option Review
deriving DecidableEq, Repr

/-- The status classifier, translated clause for clause from
CommitInfo.Status of the stack package. -/
def CommitInfo.Status (ci : CommitInfo) : CommitStatus :=
  match ci.review with
  | none => .new
  | some review =>
    match review.localRevision with
    | none => .modified
    | some localRevision =>
      if localRevision.number ≠ review.latestRevision.number then .behind
      else .current

/-- CommitStack is an ordered list of CommitInfo, HEAD-nearest first. -/
abbrev CommitStack := List CommitInfo

/-! ## Environment for stack.Load

The review service and the git backend are embedded as pure
environments. Lists mirror the GraphQL revision lists (which the Go
code indexes at 0 without a check), and `Option` mirrors fallible
lookups.  `mergeBases` stands for the go-git MergeBase call, an
external collaborator that returns the list of lowest common
ancestors. -/

/-- A revision together with its recorded parent revision, as returned
by the revisionList queries that request the parent field. -/
structure RevisionWithParent where
  revision : Revision
  parent : Option Revision
deriving DecidableEq, Repr

/-- Result of the review query of the walk: review metadata, the
latest revision list (count 1) and the local revision list filtered by
headCommitSha. -/
structure ReviewQueryResult where
  base : BaseReview
  latestRevisions : List RevisionWithParent
  localRevisions : List RevisionWithParent
deriving DecidableEq, Repr

/-- The review summary inside a linkedRevisions element: metadata and
the latest revision list (count 1). -/
structure LinkedReview where
  base : BaseReview
  latestRevisions : List Revision
deriving DecidableEq, Repr

/-- One element of the linkedRevisions answer: a review summary and
the linked revision itself. -/
structure LinkedRevision where
  review : LinkedReview
  revision : Revision
deriving DecidableEq, Repr

/-- Pure environment for stack.Load: the local git repository and the
review service. -/
structure LoadEnv where
  repoCommits : String → Option Commit
  refs : String → Option String
  mergeBases : String → String → List String
  reviewQuery : String → String → ReviewQueryResult
  latestOfReview : String → List Revision
  linkedRevisions : String → Int → List LinkedRevision

/-- Errors returned by stack.Load as Go error values. -/
inductive LoadErr where
  | referenceNotFound
  | objectNotFound
  | uniqueMergeBase
deriving DecidableEq, Repr

/-- Outcome of stack.Load. `aborted` is a Go runtime index-out-of-range
abort (not an error return); `fuelOut` is an artifact of the
fuel-bounded embedding of the walk loop. -/
inductive LoadResult where
  | ok (s : CommitStack)
  | err (e : LoadErr)
  | aborted
  | fuelOut
deriving DecidableEq, Repr

/-- Outcome of the first-parent walk loop of stack.Load. `localMatch`
records whether the loop ended through the break on a local-revision
match (true) or by reaching the merge base (false). -/
inductive WalkResult where
  | out (localMatch : Bool) (s : CommitStack) (visited : List String)
      (localRevisionParent latestRevisionParent : Option Revision)
  | err (e : LoadErr)
  | aborted
  | fuelOut
deriving DecidableEq, Repr

/-- The first-parent walk of stack.Load. For each commit short of the
merge base the loop first reads parent index 0 without a bounds check
(empty parent list: abort), resolves the parent commit, and then
either appends a New entry or queries the review service; a
local-revision match appends the entry, marks the review visited and
breaks. The visited set is extended for every reviewed commit. -/
def walkStack (env : LoadEnv) (baseHash : String) :
    Nat → Commit → CommitStack → List String →
    Option Revision → Option Revision → WalkResult
  | 0, _, _, _, _, _ => .fuelOut
  | fuel + 1, commit, s, visited, lrp, latp =>
    if commit.hash = baseHash then .out false s visited lrp latp
    else
      match commit.parentHashes with
      | [] => .aborted
      | pHash :: _ =>
        match env.repoCommits pHash with
        | none => .err .objectNotFound
        | some nextCommit =>
          if commit.reviewID = "" then
            walkStack env baseHash fuel nextCommit (s ++ [⟨commit, none⟩]) visited lrp latp
          else
            let q := env.reviewQuery commit.reviewID commit.hash
            match q.latestRevisions with
            | [] => .aborted
            | latest :: _ =>
              match q.localRevisions with
              | [] =>
                walkStack env baseHash fuel nextCommit
                  (s ++ [⟨commit, some ⟨q.base, latest.revision, none⟩⟩])
                  (commit.reviewID :: visited) lrp latest.parent
              | l :: _ =>
                .out true
                  (s ++ [⟨commit, some ⟨q.base, latest.revision, some l.revision⟩⟩])
                  (commit.reviewID :: visited) l.parent latest.parent

/-- Outcome of the starting-revision determination. -/
inductive StartResult where
  | ok (r : Option Revision)
  | aborted
deriving DecidableEq, Repr

/-- Starting-revision determination of stack.Load: default to the
recorded parent of the local revision found in the walk; when that is
absent and the last latest revision recorded a parent, query the
latest revision of the parent review afresh. -/
def determineStart (env : LoadEnv) (lrp latp : Option Revision) : StartResult :=
  match lrp with
  | some p => .ok (some p)
  | none =>
    match latp with
    | none => .ok none
    | some q =>
      match env.latestOfReview q.reviewID with
      | [] => .aborted
      | r :: _ => .ok (some r)

/-- The linked-revision phase of stack.Load, processing the linked
revisions furthest-ancestor first (stack.Load iterates the answer in
reverse, so the caller passes the reversed list). A linked revision
whose review ID is already in the visited set is skipped; the set is
not extended here, exactly as in the source. A head commit missing
from the object store is replaced by a fabricated placeholder commit
carrying only the hash. -/
def linkedPhase (env : LoadEnv) (visited : List String) :
    CommitStack → List LinkedRevision → LoadResult
  | s, [] => .ok s
  | s, lr :: rest =>
    if visited.contains lr.review.base.id then linkedPhase env visited s rest
    else
      let commit :=
        match env.repoCommits lr.revision.headCommitSHA with
        | some c => c
        | none => ⟨lr.revision.headCommitSHA, [], ""⟩
      match lr.review.latestRevisions with
      | [] => .aborted
      | latest :: _ =>
        linkedPhase env visited
          (s ++ [⟨commit, some ⟨lr.review.base, latest, some lr.revision⟩⟩]) rest

/-- stack.Load after the merge base has been determined: the walk, the
starting-revision determination, and the linked-revision phase. -/
def loadWithBase (env : LoadEnv) (fuel : Nat) (headCommit : Commit)
    (baseHash : String) : LoadResult :=
  match walkStack env baseHash fuel headCommit [] [] none none with
  | .err e => .err e
  | .aborted => .aborted
  | .fuelOut => .fuelOut
  | .out _ s visited lrp latp =>
    match determineStart env lrp latp with
    | .aborted => .aborted
    | .ok none => .ok s
    | .ok (some sr) =>
      linkedPhase env visited s (env.linkedRevisions sr.reviewID sr.number).reverse

/-- Remote-tracking reference name for a branch on the default remote. -/
def remoteRefName (branch : String) : String :=
  "refs/remotes/origin/" ++ branch

/-- Local branch reference name. -/
def branchRefName (branch : String) : String :=
  "refs/heads/" ++ branch

/-- stack.Load: resolve the default branch, compute the merge base of
the head commit and the default branch tip through the backend, fail
unless it is unique, then resolve the stack from the unique base. -/
def Load (env : LoadEnv) (fuel : Nat) (headCommit : Commit)
    (defaultBranch : String) : LoadResult :=
  match env.refs (remoteRefName defaultBranch) with
  | none => .err .referenceNotFound
  | some defaultHash =>
    match env.repoCommits defaultHash with
    | none => .err .objectNotFound
    | some defaultBranchCommit =>
      match env.mergeBases headCommit.hash defaultBranchCommit.hash with
      | [baseCommitHash] => loadWithBase env fuel headCommit baseCommitHash
      | _ => .err .uniqueMergeBase

/-- Review IDs carried by a commit stack, in order. -/
def stackReviewIDs (s : CommitStack) : List String :=
  s.filterMap (fun ci => ci.review.map (fun r => r.base.id))

/-- Outcome classification of the pure first-parent chain from a
commit: does it reach the base hash before any parentless commit? -/
inductive ChainResult where
  | hitsBase
  | hitsRoot
  | lookupFail
  | fuelOut
deriving DecidableEq, Repr

/-- Walk the first-parent chain of a commit, reporting whether the
merge base or a parentless commit is reached first. -/
def chainStatus (env : LoadEnv) : Nat → Commit → String → ChainResult
  | 0, _, _ => .fuelOut
  | fuel + 1, c, base =>
    if c.hash = base then .hitsBase
    else
      match c.parentHashes with
      | [] => .hitsRoot
      | p :: _ =>
        match env.repoCommits p with
        | none => .lookupFail
        | some next => chainStatus env fuel next base

/-- Does the walk of stack.Load actually visit a parentless commit
other than the merge base? This tracks the walk exactly: it follows
the first parent and stops early (answer false) on a local-revision
match or on any outcome that ends the walk before a parentless commit
is visited. -/
def walkHitsRoot (env : LoadEnv) : Nat → Commit → String → Bool
  | 0, _, _ => false
  | fuel + 1, c, base =>
    if c.hash = base then false
    else
      match c.parentHashes with
      | [] => true
      | p :: _ =>
        match env.repoCommits p with
        | none => false
        | some next =>
          if c.reviewID = "" then walkHitsRoot env fuel next base
          else
            match (env.reviewQuery c.reviewID c.hash).latestRevisions with
            | [] => false
            | _ :: _ =>
              match (env.reviewQuery c.reviewID c.hash).localRevisions with
              | [] => walkHitsRoot env fuel next base
              | _ :: _ => false

/-- Service well-formedness: every revision list that the Go code
indexes at 0 is nonempty. The GraphQL schema delivers count-1 revision
lists for existing reviews, so this matches the intended service
contract. -/
def WellFormedEnv (env : LoadEnv) : Prop :=
  (∀ id sha, (env.reviewQuery id sha).latestRevisions ≠ []) ∧
  (∀ id, env.latestOfReview id ≠ []) ∧
  (∀ id n lr, lr ∈ env.linkedRevisions id n → lr.review.latestRevisions ≠ [])

/-! ## The stack synchronizer (actions.Sync)

The sources carry two variants of actions.Sync. The embedding follows
the variant with the merged-review conflict check, the
continue-processing treatment of merged reviews and the worktree
reset (src/unnamed/part_000); where the other variant differs the
difference is recorded with the affected claims. -/

/-- One revision of the syncUpdatedReview GraphQL answer. -/
structure SyncUpdatedRevision where
  number : Int
  headCommitSHA : String
  baseBranch : String
  baseCommitSHA : String
deriving DecidableEq, Repr

/-- Answer of the syncReviewWithParent mutation: updated head branch
and the latest revision list (count 1). -/
structure SyncUpdatedReview where
  headBranch : String
  latestRevisions : List SyncUpdatedRevision
deriving DecidableEq, Repr

/-- Pure environment for Sync: the mutation answer per review ID and
the remote state of each branch at fetch time (none when the fetch or
the subsequent remote reference lookup fails). -/
structure SyncEnv where
  syncReviewWithParent : String → SyncUpdatedReview
  remoteBranch : String → Option String

/-- Local git reference store: newest binding first. -/
abbrev GitState := List (String × String)

/-- Write a reference. -/
def setRef (st : GitState) (name hash : String) : GitState :=
  (name, hash) :: st

/-- Resolve a reference. -/
def getRef (st : GitState) (name : String) : Option String :=
  match st.find? (fun p => p.1 = name) with
  | none => none
  | some p => some p.2

/-- Observable actions performed by Sync, mirroring the debug log and
the mutating calls of the source. -/
inductive SyncEvent where
  | examine (hash : String) (status : CommitStatus)
  | syncReview (reviewID : String)
  | fetch (branch : String)
  | repoint (ref hash : String)
  | reset (hash : String)
deriving DecidableEq, Repr

/-- Mutable state of the Sync iteration: the pending rebase target
(`newBase`, empty string when unset), the fetched head reference, the
local reference store and the event log. -/
structure SyncSt where
  newBase : String
  newHeadRef : Option String
  git : GitState
  events : List SyncEvent
deriving DecidableEq, Repr

/-- Errors Sync returns as Go error values. -/
inductive SyncErr where
  | indexNotClean
  | headNotBranch
  | loadErr (e : LoadErr)
  | fetchFailed (branch : String)
  | refNotFound (branch : String)
  | conflict (reviewID : String)
  | wrongHash (branch got want : String)
deriving DecidableEq, Repr

/-- Outcome of one iteration of the Sync loop over a stack entry. -/
inductive StepOut where
  | cont (st : SyncSt)
  | brk (st : SyncSt)
  | fail (e : SyncErr) (st : SyncSt)
  | aborted (st : SyncSt)
deriving DecidableEq, Repr

/-- pullBranch: fetch a branch from the default remote and point the
remote-tracking and local references at the fetched hash. -/
def pullBranch (env : SyncEnv) (st : SyncSt) (name : String) : Option SyncSt :=
  match env.remoteBranch name with
  | none => none
  | some h =>
    some { st with
      git := setRef (setRef st.git (remoteRefName name) h) (branchRefName name) h,
      events := st.events ++ [.fetch name] }

/-- One iteration of the Sync loop, translated from the loop body of
the synchronizer: New or Modified breaks; a Deleted review is skipped;
a Merged review is skipped when Current, fails with the conflict error
when neither Current nor Behind, and when Behind pulls the base branch
of its latest revision, records the merged head commit as the pending
base, and continues; otherwise the review is synced with its parent
through the service, and when the returned head differs from the local
commit the head branch is pulled and verified against the returned
head. -/
def syncStep (env : SyncEnv) (st : SyncSt) (ci : CommitInfo) : StepOut :=
  let status := ci.Status
  let st := { st with events := st.events ++ [.examine ci.commit.hash status] }
  match ci.review with
  | none => .brk st
  | some review =>
    if status = .new ∨ status = .modified then .brk st
    else if review.base.status = .deleted then .cont st
    else if review.base.status = .merged then
      if status = .current then .cont st
      else if status ≠ .behind then .fail (.conflict review.base.id) st
      else
        match pullBranch env st review.latestRevision.baseBranch with
        | none => .fail (.fetchFailed review.latestRevision.baseBranch) st
        | some st' => .cont { st' with newBase := review.latestRevision.headCommitSHA }
    else
      let st := { st with events := st.events ++ [.syncReview review.base.id] }
      let updatedReview := env.syncReviewWithParent review.base.id
      match updatedReview.latestRevisions with
      | [] => .aborted st
      | updatedLatestRevision :: _ =>
        if updatedLatestRevision.headCommitSHA = ci.commit.hash then .cont st
        else
          match pullBranch env st review.base.headBranch with
          | none => .fail (.fetchFailed review.base.headBranch) st
          | some st' =>
            match getRef st'.git (branchRefName review.base.headBranch) with
            | none => .fail (.refNotFound review.base.headBranch) st'
            | some newHeadHash =>
              if newHeadHash ≠ updatedLatestRevision.headCommitSHA then
                .fail (.wrongHash review.base.headBranch newHeadHash
                  updatedLatestRevision.headCommitSHA) st'
              else
                .cont { st' with
                  newBase := review.base.headBranch,
                  newHeadRef := some newHeadHash }

/-- Outcome of the full Sync loop: the final loop index (−1 when the
whole stack was consumed, otherwise the index the loop broke at), or
an early error or abort. -/
inductive LoopOut where
  | done (i : Int) (st : SyncSt)
  | failed (e : SyncErr) (st : SyncSt)
  | abortedOut (st : SyncSt)
deriving DecidableEq, Repr

/-- The Sync loop, iterating the stack from its trunk-nearest end
(index length − 1) toward HEAD (index 0). The first argument `n` is
one past the index to process next. -/
def syncLoop (env : SyncEnv) (stack : CommitStack) : Nat → SyncSt → LoopOut
  | 0, st => .done (-1) st
  | n + 1, st =>
    match stack[n]? with
    | none => .done (-1) st
    | some ci =>
      match syncStep env st ci with
      | .cont st' => syncLoop env stack n st'
      | .brk st' => .done n st'
      | .fail e st' => .failed e st'
      | .aborted st' => .abortedOut st'

/-- Outcome of Sync. The Go source reports the rebase directive as the
error text "some commits are ahead, run git rebase --onto TARGET
HEAD~COUNT"; `mustRebase` carries that target and count. -/
inductive SyncResult where
  | ok (events : List SyncEvent)
  | mustRebase (target : String) (count : Nat) (events : List SyncEvent)
  | fail (e : SyncErr) (events : List SyncEvent)
  | aborted (events : List SyncEvent)
  | fuelOut
deriving DecidableEq, Repr

/-- The iteration and epilogue of Sync over a resolved stack: run the
loop; when it broke early and a pending base was recorded, fail with
the rebase directive whose count is the final index plus one;
otherwise, when an updated head reference was fetched, repoint the
checked-out branch to it and hard-reset the worktree. -/
def syncStack (env : SyncEnv) (headRefName : String) (stack : CommitStack) : SyncResult :=
  match syncLoop env stack stack.length ⟨"", none, [], []⟩ with
  | .failed e st => .fail e st.events
  | .abortedOut st => .aborted st.events
  | .done i st =>
    if 0 ≤ i ∧ st.newBase ≠ "" then .mustRebase st.newBase (i + 1).toNat st.events
    else
      match st.newHeadRef with
      | some h => .ok (st.events ++ [.repoint headRefName h, .reset h])
      | none => .ok st.events

/-- Inputs of the Sync preamble: worktree cleanliness and the HEAD
reference. -/
structure SyncCtx where
  worktreeClean : Bool
  headRefName : String
  headRefIsBranch : Bool
  headHash : String
  defaultBranch : String
deriving DecidableEq, Repr

/-- actions.Sync end to end: preamble checks, stack resolution through
stack.Load, then the loop and epilogue. -/
def Sync (lenv : LoadEnv) (env : SyncEnv) (ctx : SyncCtx) (fuel : Nat) : SyncResult :=
  if ¬ctx.worktreeClean then .fail .indexNotClean []
  else if ¬ctx.headRefIsBranch then .fail .headNotBranch []
  else
    match lenv.repoCommits ctx.headHash with
    | none => .fail (.loadErr .objectNotFound) []
    | some headCommit =>
      match Load lenv fuel headCommit ctx.defaultBranch with
      | .err e => .fail (.loadErr e) []
      | .aborted => .aborted []
      | .fuelOut => .fuelOut
      | .ok s => if s = [] then .ok [] else syncStack env ctx.headRefName s

/-! ## The commit graph renderer (actions/switch.go)

The renderer is a faithful translation of the `graph` state machine.
Column cells hold commit pointers; the source builds one commit object
per hash, so pointer identity is hash identity, and a parent hash
missing from the commits map yields the Go nil pointer, rendered
`none`. The Go fields numColumns and numNewColumns count the live
prefix of reused map storage that is never read past the count, so
lists of exactly the counted length are an equivalent store and the
counts are the list lengths. The mapping fields are Go `map[int]int`
values read with the missing-key default 0, rendered as total
functions. Go runtime aborts raised by the renderer are `RPanic`
values. -/

/-- A column owner: hash of the commit the branch line leads to, or
none for the Go nil pointer. -/
abbrev ColCommit := Option String

/-- The six states of the renderer state machine. -/
inductive GraphState where
  | padding
  | skip
  | preCommit
  | commit
  | postMerge
  | collapsing
deriving DecidableEq, Repr

/-- Runtime aborts of the renderer. -/
inductive RPanic where
  | preCommitParents
  | expansionRows
  | postMergeNoParents
  | parentColumnNotFound
  | nilDeref
  | mappingRight
  | mappingSet
  | crossing
deriving DecidableEq, Repr

/-- The renderer state, exactly the fields of the Go graph struct (the
outfile writer is represented by the accumulated buffer). Before the
first update the Go commit pointer is nil and no code path reads it;
the placeholder initial commit plays that part. -/
structure Graph where
  commits : String → Option Commit
  buf : String
  firstParentOnly : Bool
  commit : Commit
  numParents : Nat
  width : Nat
  expansionRow : Int
  state : GraphState
  prevState : GraphState
  commitIndex : Nat
  prevCommitIndex : Nat
  mappingSize : Nat
  columns : List ColCommit
  newColumns : List ColCommit
  mapping : Int → Int
  newMapping : Int → Int

/-- numColumns is the length of the live columns store. -/
def Graph.numColumns (g : Graph) : Nat := g.columns.length

/-- numNewColumns is the length of the live newColumns store. -/
def Graph.numNewColumns (g : Graph) : Nat := g.newColumns.length

/-- newGraph: the initial renderer state. -/
def newGraph (commits : String → Option Commit) : Graph :=
  { commits := commits
    buf := ""
    firstParentOnly := false
    commit := ⟨"", [], ""⟩
    numParents := 0
    width := 0
    expansionRow := 0
    state := .padding
    prevState := .padding
    commitIndex := 0
    prevCommitIndex := 0
    mappingSize := 0
    columns := []
    newColumns := []
    mapping := fun _ => 0
    newMapping := fun _ => 0 }

/-- Pointwise update of a Go int map. -/
def fupd (f : Int → Int) (k v : Int) : Int → Int :=
  fun x => if x = k then v else f x

/-- Repeat a string. -/
def strRepeat (s : String) (n : Nat) : String :=
  String.join (List.replicate n s)

/-- The pointer of the current commit. -/
def commitPtr (g : Graph) : ColCommit := some g.commit.hash

/-- interestingParents: the parent pointers of the current commit,
looked up in the commits map; a missing parent stays in the list as
the nil pointer, exactly as in the source. -/
def interestingParents (g : Graph) : List ColCommit :=
  let hashes :=
    if g.firstParentOnly ∧ 1 < g.commit.parentHashes.length
    then g.commit.parentHashes.take 1 else g.commit.parentHashes
  hashes.map (fun h =>
    match g.commits h with
    | some c => some c.hash
    | none => none)

/-- Working state of the updateColumns population loop. -/
structure UCState where
  newColumns : List ColCommit
  mapping : Int → Int
  mappingIdx : Nat
  seenThis : Bool
  commitIndex : Nat
  isCommitInColumns : Bool

/-- Index of the first occurrence of a column value, the ascending
search of insertIntoNewColumns. -/
def listFindIdx : List ColCommit → ColCommit → Option Nat
  | [], _ => none
  | a :: t, c => if a = c then some 0 else (listFindIdx t c).map (· + 1)

/-- insertIntoNewColumns: reuse the column of a commit already in
newColumns, otherwise append a fresh column; either way record the
target column at the current mapping index and advance by 2. -/
def insertIntoNewColumns (st : UCState) (c : ColCommit) : UCState :=
  match listFindIdx st.newColumns c with
  | some i =>
    { st with mapping := fupd st.mapping st.mappingIdx i, mappingIdx := st.mappingIdx + 2 }
  | none =>
    { st with
      newColumns := st.newColumns ++ [c]
      mapping := fupd st.mapping st.mappingIdx st.newColumns.length
      mappingIdx := st.mappingIdx + 2 }

/-- Insert the parents of the current commit in order. -/
def insertParents (st : UCState) : List ColCommit → UCState
  | [] => st
  | p :: rest => insertParents (insertIntoNewColumns st p) rest

/-- Body of one iteration of the updateColumns loop at column index i. -/
def ucBody (cptr : ColCommit) (parents : List ColCommit) (i : Nat)
    (colCommit : ColCommit) (st : UCState) : UCState :=
  if colCommit = cptr then
    let oldIdx := st.mappingIdx
    let st := { st with seenThis := true, commitIndex := i }
    let st := insertParents st parents
    if st.mappingIdx = oldIdx then { st with mappingIdx := oldIdx + 2 } else st
  else insertIntoNewColumns st colCommit

/-- The updateColumns population loop over indices 0 .. numColumns
(inclusive); at index numColumns the loop breaks when the commit has
been seen and otherwise processes the commit itself. The fuel is the
exact iteration count numColumns + 1. -/
def ucLoop (columns : List ColCommit) (cptr : ColCommit) (parents : List ColCommit) :
    Nat → Nat → UCState → UCState
  | 0, _, st => st
  | r + 1, i, st =>
    if i = columns.length then
      if st.seenThis then st
      else
        ucLoop columns cptr parents r (i + 1)
          (ucBody cptr parents i cptr { st with isCommitInColumns := false })
    else
      ucLoop columns cptr parents r (i + 1) (ucBody cptr parents i (columns.getD i none) st)

/-- Clear mapping positions 0 .. n − 1 to −1. -/
def clearMapping (m : Int → Int) : Nat → Int → Int
  | 0 => m
  | n + 1 => fupd (clearMapping m n) (n : Int) (-1)

/-- Shrink the mapping size while it exceeds 1 and the last entry is
unoccupied. -/
def shrinkMappingSize (m : Int → Int) : Nat → Nat
  | 0 => 0
  | 1 => 1
  | n + 2 => if m ((n + 1 : Nat) : Int) < 0 then shrinkMappingSize m (n + 1) else n + 2

/-- updateWidth: the width of the widest row for this commit. -/
def Graph.updateWidth (g : Graph) (isCommitInExistingColumns : Bool) : Graph :=
  let maxCols := g.numColumns + g.numParents + (if g.numParents < 1 then 1 else 0)
  let maxCols := maxCols - (if isCommitInExistingColumns then 1 else 0)
  { g with width := maxCols * 2 }

/-- The population loop of updateColumns, run against the columns of
this commit — the newColumns prepared by the previous round, which
updateColumns swaps into the columns field. -/
def ucRun (g : Graph) : UCState :=
  ucLoop g.newColumns (commitPtr g) (interestingParents g)
    (g.newColumns.length + 1) 0
    ⟨[], clearMapping g.mapping (2 * (g.newColumns.length + g.numParents)),
     0, false, g.commitIndex, true⟩

/-- updateColumns: swap in the columns prepared for this commit,
clear the transition mapping, repopulate newColumns and the mapping
for the next commit, shrink the mapping, and recompute the width. -/
def Graph.updateColumns (g : Graph) : Graph :=
  let stF := ucRun g
  let g' := { g with
    columns := g.newColumns
    newColumns := stF.newColumns
    mapping := stF.mapping
    mappingSize := shrinkMappingSize stF.mapping (2 * (g.newColumns.length + g.numParents))
    commitIndex := stF.commitIndex }
  g'.updateWidth stF.isCommitInColumns

/-- update: install the next commit and choose the next state. -/
def Graph.update (g : Graph) (c : Commit) : Graph :=
  let g := { g with commit := c }
  let g := { g with numParents := (interestingParents g).length }
  let g := { g with prevCommitIndex := g.commitIndex }
  let g := g.updateColumns
  let g := { g with expansionRow := 0 }
  { g with state :=
      if g.state ≠ .padding then .skip
      else if 3 ≤ g.numParents ∧ g.commitIndex + 1 < g.numColumns then .preCommit
      else .commit }

/-- updateState: record the previous state and move to the next. -/
def Graph.updateState (g : Graph) (s : GraphState) : Graph :=
  { g with prevState := g.state, state := s }

/-- isMappingCorrect: every occupied entry sits at its target. -/
def Graph.isMappingCorrect (g : Graph) : Bool :=
  (List.range g.mappingSize).all
    (fun i => decide (g.mapping i < 0 ∨ g.mapping i = ((i / 2 : Nat) : Int)))

/-- padHorizontally: right-pad the row to the commit width. -/
def Graph.padHorizontally (g : Graph) (charsWritten : Nat) : Graph :=
  if g.width ≤ charsWritten then g
  else { g with buf := g.buf ++ strRepeat " " (g.width - charsWritten) }

/-- outputPaddingLine: vertical bars only. -/
def Graph.outputPaddingLine (g : Graph) : Graph :=
  let g := { g with buf := g.buf ++ strRepeat "| " g.numNewColumns }
  g.padHorizontally (g.numNewColumns * 2)

/-- outputSkipLine: the ellipsis marker for unfinished output. -/
def Graph.outputSkipLine (g : Graph) : Graph :=
  let g := { g with buf := g.buf ++ "..." }
  let g := g.padHorizontally 3
  if 3 ≤ g.numParents ∧ g.commitIndex + 1 < g.numColumns then g.updateState .preCommit
  else g.updateState .commit

/-- Accumulator of one rendered row: the text, the seen-this flag and
the Go charsWritten counter. -/
structure RowSt where
  add : String
  seenThis : Bool
  chars : Nat

/-- The column loop of outputPreCommitLine at increasing index i. -/
def preCommitCols (g : Graph) : Nat → List ColCommit → RowSt → RowSt
  | _, [], st => st
  | i, col :: rest, st =>
    let st :=
      if col = commitPtr g then
        { st with
          add := st.add ++ "|" ++ strRepeat " " g.expansionRow.toNat
          seenThis := true
          chars := st.chars + 1 + g.expansionRow.toNat }
      else if st.seenThis ∧ g.expansionRow = 0 then
        if g.prevState = .postMerge ∧ g.prevCommitIndex < i then
          { st with add := st.add ++ "\\", chars := st.chars + 1 }
        else { st with add := st.add ++ "|", chars := st.chars + 1 }
      else if st.seenThis ∧ 0 < g.expansionRow then
        { st with add := st.add ++ "\\", chars := st.chars + 1 }
      else { st with add := st.add ++ "|", chars := st.chars + 1 }
    preCommitCols g (i + 1) rest { st with add := st.add ++ " ", chars := st.chars + 1 }

/-- outputPreCommitLine: the expansion rows before a commit with three
or more parents. -/
def Graph.outputPreCommitLine (g : Graph) : Except RPanic Graph :=
  if g.numParents < 3 then .error .preCommitParents
  else
    let numExpansionRows := (g.numParents - 2) * 2
    if g.expansionRow < 0 ∨ (numExpansionRows : Int) ≤ g.expansionRow then
      .error .expansionRows
    else
      let st := preCommitCols g 0 g.columns ⟨"", false, 0⟩
      let g := { g with buf := g.buf ++ st.add }
      let g := g.padHorizontally st.chars
      let g := { g with expansionRow := g.expansionRow + 1 }
      if (numExpansionRows : Int) ≤ g.expansionRow then .ok (g.updateState .commit)
      else .ok g

/-- drawOctopusMerge: the dashes and junction of an octopus commit
row, and the character count it contributes. The columns the dashes
are attributed to do not affect the text. -/
def drawOctopusMerge (numParents : Nat) : String × Nat :=
  let numDashes := (numParents - 2) * 2 - 1
  (strRepeat "-" numDashes ++ ".", numDashes + 1)

/-- The column loop of outputCommitLine over indices 0 .. numColumns
with the break at the final index once the commit has been seen; the
fuel is the exact iteration count numColumns + 1. -/
def commitCols (g : Graph) : Nat → Nat → RowSt → RowSt
  | 0, _, st => st
  | r + 1, i, st =>
    if i = g.numColumns ∧ st.seenThis then st
    else
      let colCommit := if i = g.numColumns then commitPtr g else g.columns.getD i none
      let st :=
        if colCommit = commitPtr g then
          let st := { st with add := st.add ++ "*", seenThis := true, chars := st.chars + 1 }
          if 2 < g.numParents then
            let od := drawOctopusMerge g.numParents
            { st with add := st.add ++ od.1, chars := st.chars + od.2 }
          else st
        else if st.seenThis ∧ 2 < g.numParents then
          { st with add := st.add ++ "\\", chars := st.chars + 1 }
        else if st.seenThis ∧ g.numParents = 2 then
          if g.prevState = .postMerge ∧ g.prevCommitIndex < i then
            { st with add := st.add ++ "\\", chars := st.chars + 1 }
          else { st with add := st.add ++ "|", chars := st.chars + 1 }
        else { st with add := st.add ++ "|", chars := st.chars + 1 }
      commitCols g r (i + 1) { st with add := st.add ++ " ", chars := st.chars + 1 }

/-- outputCommitLine: the row carrying the commit marker. -/
def Graph.outputCommitLine (g : Graph) : Graph :=
  let st := commitCols g (g.numColumns + 1) 0 ⟨"", false, 0⟩
  let g := { g with buf := g.buf ++ st.add }
  let g := g.padHorizontally st.chars
  if 1 < g.numParents then g.updateState .postMerge
  else if g.isMappingCorrect then g.updateState .padding
  else g.updateState .collapsing

/-- findNewColumnByCommit as a found flag; comparing against a nil
column or a nil commit dereferences a nil pointer in the source. -/
def fncbc : List ColCommit → ColCommit → Except RPanic Bool
  | [], _ => .ok false
  | none :: _, _ => .error .nilDeref
  | some _ :: _, none => .error .nilDeref
  | some h :: rest, some hc => if h = hc then .ok true else fncbc rest (some hc)

/-- The per-parent fan-out of the postmerge row: each parent column is
located (a missing one dereferences nil) and drawn as a diagonal. -/
def postMergeParents (g : Graph) : List ColCommit → RowSt → Except RPanic RowSt
  | [], st => .ok st
  | p :: rest, st =>
    match fncbc g.newColumns p with
    | .error e => .error e
    | .ok false => .error .nilDeref
    | .ok true => postMergeParents g rest { st with add := st.add ++ "\\ " }

/-- The column loop of outputPostMergeLine, fuel numColumns + 1. -/
def postMergeCols (g : Graph) : Nat → Nat → RowSt → Except RPanic RowSt
  | 0, _, st => .ok st
  | r + 1, i, st =>
    if i = g.numColumns ∧ st.seenThis then .ok st
    else
      let colCommit := if i = g.numColumns then commitPtr g else g.columns.getD i none
      if colCommit = commitPtr g then
        match interestingParents g with
        | [] => .error .postMergeNoParents
        | p0 :: _ =>
          match fncbc g.newColumns p0 with
          | .error e => .error e
          | .ok false => .error .parentColumnNotFound
          | .ok true =>
            let st := { st with add := st.add ++ "|", seenThis := true, chars := st.chars + 1 }
            match postMergeParents g (interestingParents g) st with
            | .error e => .error e
            | .ok st =>
              postMergeCols g r (i + 1)
                { st with chars := st.chars + (g.numParents - 1) * 2 }
      else if st.seenThis then
        postMergeCols g r (i + 1) { st with add := st.add ++ "\\ ", chars := st.chars + 2 }
      else
        postMergeCols g r (i + 1) { st with add := st.add ++ "| ", chars := st.chars + 2 }

/-- outputPostMergeLine: the fan-out row after a two-parent commit. -/
def Graph.outputPostMergeLine (g : Graph) : Except RPanic Graph :=
  match postMergeCols g (g.numColumns + 1) 0 ⟨"", false, 0⟩ with
  | .error e => .error e
  | .ok st =>
    let g := { g with buf := g.buf ++ st.add }
    let g := g.padHorizontally st.chars
    if g.isMappingCorrect then .ok (g.updateState .padding)
    else .ok (g.updateState .collapsing)

/-- Working state of the collapsing transition: the next-row mapping
and the chosen horizontal edge. -/
structure CollapseSt where
  newMapping : Int → Int
  horizontalEdge : Int
  horizontalEdgeTarget : Int

/-- The horizontal run of a collapsing row: mark positions
target·2+3, target·2+5, … strictly below stop. The fuel bounds the
run length; callers pass the mapping size, which the run never
reaches. -/
def hrun (t : Int) : Nat → Int → Int → (Int → Int) → (Int → Int)
  | 0, _, _, m => m
  | r + 1, j, stop, m => if j < stop then hrun t r (j + 2) stop (fupd m j t) else m

/-- The first loop of outputCollapsingLine: route every occupied
mapping entry into the next-row mapping, moving lines at most one
column left per step except for the single horizontal edge; the three
internal consistency checks abort. Fuel is the exact count size. -/
def collapseLoop (oldM : Int → Int) (size : Nat) :
    Nat → Nat → CollapseSt → Except RPanic CollapseSt
  | 0, _, st => .ok st
  | r + 1, i, st =>
    let target := oldM i
    if target < 0 then collapseLoop oldM size r (i + 1) st
    else if (i : Int) < target * 2 then .error .mappingRight
    else if target * 2 = (i : Int) then
      if st.newMapping i ≠ -1 then .error .mappingSet
      else collapseLoop oldM size r (i + 1) { st with newMapping := fupd st.newMapping i target }
    else if st.newMapping ((i : Int) - 1) < 0 then
      let nm := fupd st.newMapping ((i : Int) - 1) target
      if st.horizontalEdge = -1 then
        collapseLoop oldM size r (i + 1)
          ⟨hrun target size (target * 2 + 3) ((i : Int) - 2) nm, (i : Int), target⟩
      else collapseLoop oldM size r (i + 1) { st with newMapping := nm }
    else if st.newMapping ((i : Int) - 1) = target then collapseLoop oldM size r (i + 1) st
    else
      if st.newMapping ((i : Int) - 1) ≤ target ∨ 0 ≤ st.newMapping ((i : Int) - 2) ∨
          st.newMapping ((i : Int) - 3) ≠ target then .error .crossing
      else
        let st' : CollapseSt :=
          ⟨fupd st.newMapping ((i : Int) - 2) target,
           if st.horizontalEdge = -1 then (i : Int) else st.horizontalEdge,
           st.horizontalEdgeTarget⟩
        collapseLoop oldM size r (i + 1) st'

/-- Accumulator of the collapsing output loop. -/
structure COutSt where
  add : String
  nm : Int → Int
  usedHorizontal : Bool

/-- The output loop of outputCollapsingLine: draw the row from the new
mapping and erase every horizontal segment but the first so they do
not continue into the next row. The column a character is attributed
to does not affect the text. Fuel is the exact count. -/
def collapseOut (he ht : Int) : Nat → Nat → COutSt → COutSt
  | 0, _, st => st
  | r + 1, i, st =>
    let target := st.nm i
    let st :=
      if target < 0 then { st with add := st.add ++ " " }
      else if target * 2 = (i : Int) then { st with add := st.add ++ "|" }
      else if target = ht ∧ (i : Int) ≠ he - 1 then
        { st with
          nm := if (i : Int) ≠ target * 2 + 3 then fupd st.nm i (-1) else st.nm
          usedHorizontal := true
          add := st.add ++ "_" }
      else
        { st with
          nm := if st.usedHorizontal ∧ (i : Int) < he then fupd st.nm i (-1) else st.nm
          add := st.add ++ "/" }
    collapseOut he ht r (i + 1) st

/-- outputCollapsingLine: move branch lines one step toward their
target columns, swap the mappings, and return to padding once every
line is in place. -/
def Graph.outputCollapsingLine (g : Graph) : Except RPanic Graph :=
  match collapseLoop g.mapping g.mappingSize g.mappingSize 0
      ⟨clearMapping g.newMapping g.mappingSize, -1, -1⟩ with
  | .error e => .error e
  | .ok st =>
    let msz :=
      if st.newMapping ((g.mappingSize : Int) - 1) < 0 then g.mappingSize - 1
      else g.mappingSize
    let outSt := collapseOut st.horizontalEdge st.horizontalEdgeTarget msz 0
      ⟨"", st.newMapping, false⟩
    let g' := { g with buf := g.buf ++ outSt.add }
    let g' := Graph.padHorizontally
      { g' with mapping := outSt.nm, newMapping := g.mapping, mappingSize := msz } msz
    if g'.isMappingCorrect then .ok (g'.updateState .padding) else .ok g'

/-- nextLine: emit one row in the current state. The flag reports
whether the row was the commit row. -/
def Graph.nextLine (g : Graph) : Except RPanic (Graph × Bool) :=
  match g.state with
  | .padding => .ok (g.outputPaddingLine, false)
  | .skip => .ok (g.outputSkipLine, false)
  | .preCommit =>
    match g.outputPreCommitLine with
    | .error e => .error e
    | .ok g' => .ok (g', false)
  | .commit => .ok (g.outputCommitLine, true)
  | .postMerge =>
    match g.outputPostMergeLine with
    | .error e => .error e
    | .ok g' => .ok (g', false)
  | .collapsing =>
    match g.outputCollapsingLine with
    | .error e => .error e
    | .ok g' => .ok (g', false)

/-- isCommitFinished: the machine is back in the padding state. -/
def Graph.isCommitFinished (g : Graph) : Bool := g.state = .padding

/-- One driver action of makeSelectItems: install the next commit, or
emit the next row. After an update the state is never padding, so the
showPadding path of showCommit is never taken by this driver and rows
are emitted by nextLine alone, exactly as in the source. -/
inductive RCmd where
  | upd (c : Commit)
  | line

/-- Run one driver action. -/
def runCmd (g : Graph) : RCmd → Except RPanic Graph
  | .upd c => .ok (g.update c)
  | .line =>
    match g.nextLine with
    | .error e => .error e
    | .ok p => .ok p.1

/-- Run a list of driver actions. -/
def runCmds (g : Graph) : List RCmd → Except RPanic Graph
  | [] => .ok g
  | c :: rest =>
    match runCmd g c with
    | .error e => .error e
    | .ok g' => runCmds g' rest

/-- Did the run complete without a runtime abort? -/
def runCmdsOk (g : Graph) (cmds : List RCmd) : Bool :=
  match runCmds g cmds with
  | .ok _ => true
  | .error _ => false

/-- The final state of a run, defaulting to the start state on an
abort. -/
def runCmdsD (g : Graph) (cmds : List RCmd) : Graph :=
  match runCmds g cmds with
  | .ok g' => g'
  | .error _ => g

/-- The result state of one row emission, defaulting to the input
state on an abort. -/
def nextLineD (g : Graph) : Graph :=
  match g.nextLine with
  | .ok p => p.1
  | .error _ => g

/-- Did the row emission complete without a runtime abort? -/
def nextLineOk (g : Graph) : Bool :=
  match g.nextLine with
  | .ok _ => true
  | .error _ => false

/-- Renderer states reachable from the initial state by installs of
further commits and row emissions, as driven by makeSelectItems. -/
inductive Reachable (cs : String → Option Commit) : Graph → Prop
  | init : Reachable cs (newGraph cs)
  | step (g : Graph) (c : Commit) : Reachable cs g → Reachable cs (g.update c)
  | row (g g' : Graph) (b : Bool) : Reachable cs g → g.nextLine = .ok (g', b) →
      Reachable cs g'

/-- A mapping function is good below a bound when every occupied
entry targets a column at or left of its position. -/
def GoodM (m : Int → Int) (n : Nat) : Prop :=
  ∀ i : Nat, i < n → 0 ≤ m i → 2 * m i ≤ (i : Int)

/-- The collapsing invariant: every occupied mapping entry targets a
column at or left of its current position. -/
def GoodMapping (g : Graph) : Prop :=
  GoodM g.mapping g.mappingSize

/-- A mapping function is zero at negative keys: the Go maps are never
written at negative keys, so reads there give the missing-key default. -/
def ZeroNegF (m : Int → Int) : Prop :=
  ∀ k : Int, k < 0 → m k = 0

/-- Both mapping stores of a renderer state are zero at negative keys. -/
def ZeroNeg (g : Graph) : Prop :=
  ZeroNegF g.mapping ∧ ZeroNegF g.newMapping

/-- Every occupied entry of a routed mapping has a source entry with
the same target at or right of it in the original mapping. -/
def SourceOk (oldM : Int → Int) (n : Nat) (m : Int → Int) : Prop :=
  ∀ j : Nat, j < n → 0 ≤ m j → ∃ i : Nat, i < n ∧ oldM i = m j ∧ j ≤ i

/-! ## Helper discriminators -/

/-- Is a step outcome the loop break? -/
def StepOut.isBrk : StepOut → Bool
  | .brk _ => true
  | _ => false

/-- Is an event a branch repoint? -/
def SyncEvent.isRepoint : SyncEvent → Bool
  | .repoint _ _ => true
  | _ => false

/-- Target and count of a rebase directive, when the result is one. -/
def SyncResult.rebaseTargetCount : SyncResult → Option (String × Nat)
  | .mustRebase target count _ => some (target, count)
  | _ => none

/-! ## The checked claims, rendered as propositions

Each `claim…` definition renders one spec claim as stated, to be
proved or refuted against the embedding. -/

/-- The spec characterization of Current: the commit hash equals the
latest revision head commit, or the review is merged and the commit
matches its final (latest) revision. -/
def SpecCurrent (ci : CommitInfo) : Prop :=
  ∃ r, ci.review = some r ∧
    (ci.commit.hash = r.latestRevision.headCommitSHA ∨
      (r.base.status = .merged ∧ ci.commit.hash = r.latestRevision.headCommitSHA))

/-- Claim C1 as stated: over every CommitInfo, Current holds exactly
under SpecCurrent, and the other three statuses arise as described. -/
def claimStatusClassifier : Prop :=
  ∀ ci : CommitInfo,
    (ci.Status = .current ↔ SpecCurrent ci) ∧
    (ci.review = none → ci.Status = .new) ∧
    (∀ r, ci.review = some r → r.localRevision = none → ci.Status = .modified) ∧
    (∀ r lr, ci.review = some r → r.localRevision = some lr →
      lr.number ≠ r.latestRevision.number → ci.Status = .behind)

/-- Claim C3 as stated, in the part the embedding refutes: when the
walk stopped through a local-revision match whose recorded parent
revision is absent, there is no remote continuation, so the resolved
stack is exactly the walked prefix. -/
def claimStartRevision : Prop :=
  ∀ (env : LoadEnv) (fuel : Nat) (headCommit : Commit) (baseHash : String)
    (s : CommitStack) (visited : List String) (latp : Option Revision),
    walkStack env baseHash fuel headCommit [] [] none none = .out true s visited none latp →
    loadWithBase env fuel headCommit baseHash = .ok s

/-- Claim C4 as stated: a stack returned by Load never carries a
review ID twice. -/
def claimNoDuplicateReviewIDs : Prop :=
  ∀ (env : LoadEnv) (fuel : Nat) (headCommit : Commit) (defaultBranch : String)
    (s : CommitStack),
    Load env fuel headCommit defaultBranch = .ok s → (stackReviewIDs s).Nodup

/-- Claim C5 as stated: every entry appended by the linked-revision
phase carries the linked revision as both its latest and its local
revision. -/
def claimLinkedLatestEqualsLocal : Prop :=
  ∀ (env : LoadEnv) (visited : List String) (s : CommitStack)
    (l : List LinkedRevision) (out : CommitStack),
    linkedPhase env visited s l = .ok out →
    ∀ ci ∈ out, ci ∈ s ∨ ∀ r, ci.review = some r → r.localRevision = some r.latestRevision

/-- Claim C6 as stated: a merged-review entry is handled exactly as
Current implies continue, Behind implies fetch the merged base branch,
record the merged head commit and stop iterating (the loop break),
and any other status implies the conflict failure. -/
def claimMergedHandling : Prop :=
  ∀ (env : SyncEnv) (st : SyncSt) (ci : CommitInfo) (r : Review),
    ci.review = some r → r.base.status = .merged →
    (ci.Status = .current → ∃ st', syncStep env st ci = .cont st') ∧
    (ci.Status = .behind → ∃ st', syncStep env st ci = .brk st' ∧
      SyncEvent.fetch r.latestRevision.baseBranch ∈ st'.events ∧
      st'.newBase = r.latestRevision.headCommitSHA) ∧
    (ci.Status ≠ .new → ci.Status ≠ .modified → ci.Status ≠ .current →
      ci.Status ≠ .behind →
      ∃ st', syncStep env st ci = .fail (.conflict r.base.id) st')

/-! ### Fixtures: scenario B of the spec -/

/-- Revision 1 of review R100. -/
def revX1 : Revision := ⟨"R100", 1, "main", "t", "x"⟩

/-- Revision 2 of review R100: the merge into main with head commit M. -/
def revX2 : Revision := ⟨"R100", 2, "main", "t", "M"⟩

/-- Revision 1 of review R200. -/
def revY1 : Revision := ⟨"R200", 1, "b-x", "x", "y"⟩

/-- Metadata of the merged review R100. -/
def baseX : BaseReview := ⟨"R100", 1, "b-x", .merged, false⟩

/-- Metadata of the open review R200. -/
def baseY : BaseReview := ⟨"R200", 2, "b-y", .opened, false⟩

/-- The unpublished HEAD commit Z. -/
def ciZ : CommitInfo := ⟨⟨"z", ["y"], ""⟩, none⟩

/-- The current open entry Y. -/
def ciY : CommitInfo := ⟨⟨"y", ["x"], "R200"⟩, some ⟨baseY, revY1, some revY1⟩⟩

/-- The merged, behind entry X. -/
def ciX : CommitInfo := ⟨⟨"x", ["t"], "R100"⟩, some ⟨baseX, revX2, some revX1⟩⟩

/-- Scenario B environment: the sync of R200 reports the unchanged
local head, and the merged base branch main is fetchable at M. -/
def envB : SyncEnv :=
  { syncReviewWithParent := fun id =>
      if id = "R200" then ⟨"b-y", [⟨1, "y", "b-x", "x"⟩]⟩ else ⟨"", []⟩
    remoteBranch := fun b => if b = "main" then some "M" else none }

/-- Claim C7 as stated: a rebase directive counts the entries strictly
nearer HEAD than the entry the loop stopped at, and scenario B yields
target M with count 2 and no repoint. -/
def claimMustRebaseCount : Prop :=
  (∀ (env : SyncEnv) (headRefName : String) (stack : CommitStack) (i : Int) (st : SyncSt),
    syncLoop env stack stack.length ⟨"", none, [], []⟩ = .done i st →
    0 ≤ i → st.newBase ≠ "" →
    syncStack env headRefName stack = .mustRebase st.newBase i.toNat st.events) ∧
  (∃ evs, syncStack envB "refs/heads/feature" [ciZ, ciY, ciX] = .mustRebase "M" 2 evs ∧
    ∀ e ∈ evs, e.isRepoint = false)

/-- Claim C10 as stated: with a unique merge base and a well-formed
service, a first-parent chain that reaches the merge base makes Load
terminate without a runtime abort, and a chain that reaches a
parentless commit other than the merge base makes Load abort. -/
def claimParentIndexAbort : Prop :=
  ∀ (env : LoadEnv) (fuel : Nat) (headCommit : Commit) (defaultBranch dh : String)
    (dc : Commit) (baseHash : String),
    WellFormedEnv env →
    env.refs (remoteRefName defaultBranch) = some dh →
    env.repoCommits dh = some dc →
    env.mergeBases headCommit.hash dc.hash = [baseHash] →
    (chainStatus env fuel headCommit baseHash = .hitsBase →
      Load env fuel headCommit defaultBranch ≠ .aborted) ∧
    (chainStatus env fuel headCommit baseHash = .hitsRoot →
      Load env fuel headCommit defaultBranch = .aborted)

/-- Movement bound of claim C9: every occupied position of the mapping
after a collapsing row has a source at most one column (two mapping
positions) to its right in the mapping before the row. -/
def MovedOneColumn (g g' : Graph) : Prop :=
  ∀ j : Nat, j < g'.mappingSize → 0 ≤ g'.mapping j →
    ∃ i : Nat, i < g.mappingSize ∧ g.mapping i = g'.mapping j ∧ j ≤ i ∧ i ≤ j + 2

/-- Leftward-only movement: every occupied position of the mapping
after a collapsing row has a source at or right of it before the row. -/
def LeftOnly (g g' : Graph) : Prop :=
  ∀ j : Nat, j < g'.mappingSize → 0 ≤ g'.mapping j →
    ∃ i : Nat, i < g.mappingSize ∧ g.mapping i = g'.mapping j ∧ j ≤ i

/-- Claim C9 as stated: at every reachable state about to emit a
collapsing row, every occupied mapping entry targets a column at or
left of its position, the internal check of that condition does not
fire, and each active line moves at most one column left in the row. -/
def claimCollapsingMoves : Prop :=
  ∀ (cs : String → Option Commit) (g : Graph), Reachable cs g →
    g.state = .collapsing →
    GoodMapping g ∧
    g.nextLine ≠ .error .mappingRight ∧
    (nextLineOk g = true → MovedOneColumn g (nextLineD g))

/-! ### Fixtures: Load counterexample environments -/

/-- Head commit of the Load fixtures, carrying the R1 trailer. -/
def c3head : Commit := ⟨"h1", ["b"], "R1"⟩

/-- The merge base commit of the Load fixtures. -/
def c3base : Commit := ⟨"b", [], ""⟩

/-- Local revision 1 of review R1, matching commit h1. -/
def c3rev1 : Revision := ⟨"R1", 1, "main", "b", "h1"⟩

/-- Latest revision 2 of review R1. -/
def c3rev2 : Revision := ⟨"R1", 2, "main", "b", "h1v2"⟩

/-- The recorded parent revision of the latest revision of R1,
revision 3 of review R0. -/
def c3pRev : Revision := ⟨"R0", 3, "main", "b", "p3"⟩

/-- The fresh latest revision of review R0, revision 4. -/
def c3fresh : Revision := ⟨"R0", 4, "main", "b", "p4"⟩

/-- Metadata of review R1. -/
def c3baseR1 : BaseReview := ⟨"R1", 1, "br-1", .opened, false⟩

/-- Metadata of review R0. -/
def c3baseR0 : BaseReview := ⟨"R0", 2, "br-0", .merged, false⟩

/-- Environment refuting claim C3: the walk stops on a local match of
R1 whose recorded parent is absent, while the latest revision of R1
records the parent revision of review R0; the service then continues
remotely from the fresh latest revision of R0. -/
def c3env : LoadEnv :=
  { repoCommits := fun h =>
      if h = "h1" then some c3head else if h = "b" then some c3base else none
    refs := fun r => if r = remoteRefName "main" then some "b" else none
    mergeBases := fun h t => if h = "h1" ∧ t = "b" then ["b"] else []
    reviewQuery := fun id sha =>
      if id = "R1" ∧ sha = "h1" then ⟨c3baseR1, [⟨c3rev2, some c3pRev⟩], [⟨c3rev1, none⟩]⟩
      else ⟨c3baseR1, [⟨c3rev1, none⟩], []⟩
    latestOfReview := fun id => if id = "R0" then [c3fresh] else [c3rev1]
    linkedRevisions := fun id n =>
      if id = "R0" ∧ n = 4 then [⟨⟨c3baseR0, [c3fresh]⟩, c3fresh⟩] else [] }

/-- The walked entry of the C3 fixture. -/
def c3walkEntry : CommitInfo := ⟨c3head, some ⟨c3baseR1, c3rev2, some c3rev1⟩⟩

/-- The linked revision element used twice in the C4 fixture; its
revision (number 3) is not the latest revision of R0 (number 4). -/
def c4linked : LinkedRevision := ⟨⟨c3baseR0, [c3fresh]⟩, c3pRev⟩

/-- Environment refuting claim C4: the linked-revision answer lists
review R0 twice, and both copies survive into the stack. -/
def c4env : LoadEnv :=
  { c3env with
    linkedRevisions := fun id n =>
      if id = "R0" ∧ n = 4 then [c4linked, c4linked] else [] }

/-- The entry appended for each copy of the duplicated linked
revision: local revision 3, latest revision 4. -/
def c4linkedEntry : CommitInfo :=
  ⟨⟨"p3", [], ""⟩, some ⟨c3baseR0, c3fresh, some c3pRev⟩⟩

/-! ### Fixtures: C10 counterexample environment -/

/-- Head commit whose first parent is the parentless commit h0. -/
def c10head : Commit := ⟨"h1", ["h0"], "R1"⟩

/-- The parentless commit h0, distinct from the merge base b. -/
def c10root : Commit := ⟨"h0", [], ""⟩

/-- Environment refuting claim C10: the first-parent chain of h1 ends
at the parentless h0 while the merge base is b, yet the walk breaks at
h1 on a local-revision match and Load returns a stack instead of
aborting. The service is well formed. -/
def c10env : LoadEnv :=
  { repoCommits := fun h =>
      if h = "h1" then some c10head else if h = "h0" then some c10root
      else if h = "b" then some c3base else none
    refs := fun r => if r = remoteRefName "main" then some "b" else none
    mergeBases := fun h t => if h = "h1" ∧ t = "b" then ["b"] else []
    reviewQuery := fun id sha =>
      if id = "R1" ∧ sha = "h1" then ⟨c3baseR1, [⟨c3rev1, none⟩], [⟨c3rev1, none⟩]⟩
      else ⟨c3baseR1, [⟨c3rev1, none⟩], []⟩
    latestOfReview := fun _ => [c3rev1]
    linkedRevisions := fun _ _ => [] }

/-- The C10 environment without the local match: the walk passes h1
and visits the parentless h0, so Load aborts on the parent index. -/
def c10envB : LoadEnv :=
  { c10env with
    reviewQuery := fun id sha =>
      if id = "R1" ∧ sha = "h1" then ⟨c3baseR1, [⟨c3rev1, none⟩], []⟩
      else ⟨c3baseR1, [⟨c3rev1, none⟩], []⟩ }

/-- Ambiguous-merge-base environment for the C2 witness. -/
def c2env : LoadEnv :=
  { c10env with mergeBases := fun _ _ => ["a", "b"] }

/-! ### Fixtures: C6 and C8 -/

/-- Local revision 1 of the second merged review R300. -/
def revW1 : Revision := ⟨"R300", 1, "main", "t", "w"⟩

/-- Latest revision 2 of R300: merged into main2 with head M2. -/
def revW2 : Revision := ⟨"R300", 2, "main2", "t", "M2"⟩

/-- Metadata of the merged review R300. -/
def baseW : BaseReview := ⟨"R300", 3, "b-w", .merged, false⟩

/-- A second merged, behind entry stacked above X. -/
def ciW : CommitInfo := ⟨⟨"w", ["x"], "R300"⟩, some ⟨baseW, revW2, some revW1⟩⟩

/-- Environment for the C6 counterexample: both merged base branches
are fetchable. -/
def envC6 : SyncEnv :=
  { syncReviewWithParent := fun _ => ⟨"", []⟩
    remoteBranch := fun b =>
      if b = "main" then some "M" else if b = "main2" then some "M2" else none }

/-- An open review entry whose post-sync head differs from the local
commit, for the C8 witness. -/
def c8ci : CommitInfo := ⟨⟨"y", ["x"], "R200"⟩, some ⟨baseY, revY1, some revY1⟩⟩

/-- C8 witness environment: the sync of R200 reports head y2 and the
head branch b-y fetches at y2. -/
def c8env : SyncEnv :=
  { syncReviewWithParent := fun id =>
      if id = "R200" then ⟨"b-y", [⟨2, "y2", "b-x", "x"⟩]⟩ else ⟨"", []⟩
    remoteBranch := fun b => if b = "b-y" then some "y2" else none }

/-! ### Fixtures: the renderer counterexample trace -/

/-- Commit M2, a two-parent merge. -/
def cM2 : Commit := ⟨"M2", ["M1", "D"], ""⟩

/-- Commit E on a side branch. -/
def cE : Commit := ⟨"E", ["A"], ""⟩

/-- Commit M1, an octopus merge with three parents. -/
def cM1 : Commit := ⟨"M1", ["A", "B", "C"], ""⟩

/-- Commit D on a side branch. -/
def cD : Commit := ⟨"D", ["A"], ""⟩

/-- Commit B, second parent of M1. -/
def cB : Commit := ⟨"B", ["A"], ""⟩

/-- Commit C, third parent of M1. -/
def cC : Commit := ⟨"C", ["A"], ""⟩

/-- The root commit A. -/
def cA : Commit := ⟨"A", [], ""⟩

/-- The commits map of the renderer counterexample DAG. -/
def cexCommits : String → Option Commit := fun h =>
  if h = "M2" then some cM2 else if h = "E" then some cE
  else if h = "M1" then some cM1 else if h = "D" then some cD
  else if h = "B" then some cB else if h = "C" then some cC
  else if h = "A" then some cA else none

/-- The driver actions of makeSelectItems on the counterexample DAG in
its topological order M2, E, M1, …, up to the state about to emit the
collapsing row that carries the horizontal edge. -/
def traceCmds : List RCmd :=
  [.upd cM2, .line, .line, .upd cE, .line, .upd cM1, .line, .line, .line, .line]

/-- The reachable renderer state about to emit the horizontal-edge
collapsing row. -/
def gBad : Graph := runCmdsD (newGraph cexCommits) traceCmds

/-- A CommitInfo refuting the spec characterization of Current: the
commit hash equals the latest revision head commit, yet no local
revision is recorded, so the classifier answers Modified. -/
def ciC1 : CommitInfo :=
  ⟨⟨"h", [], ""⟩, some ⟨⟨"R", 0, "b", .opened, false⟩, ⟨"R", 1, "m", "x", "h"⟩, none⟩⟩

/-- The events of the scenario B run. -/
def scenBEvents : List SyncEvent :=
  [.examine "x" .behind, .fetch "main", .examine "y" .current,
   .syncReview "R200", .examine "z" .new]

/-- The loop state at the end of the scenario B run: pending base M,
no fetched head reference, the fetched main refs, the event log. -/
def stB : SyncSt :=
  ⟨"M", none,
   [(branchRefName "main", "M"), (remoteRefName "main", "M")],
   scenBEvents⟩

/-- Service-echo contract: a review query answers with the queried
review ID. -/
def EchoIDs (env : LoadEnv) : Prop :=
  ∀ id sha, (env.reviewQuery id sha).base.id = id

/-- The population-loop invariant: twice the column count bounds the
mapping index, occupied mapping entries below the bound are good, and
negative keys stay zero. -/
def UCInv (bound : Nat) (st : UCState) : Prop :=
  2 * (st.newColumns.length : Int) ≤ (st.mappingIdx : Int) ∧
  GoodM st.mapping bound ∧ ZeroNegF st.mapping

/-- Two renderer states agree on both mapping stores and the mapping
size; the row writers only touch the output buffer and the state tag. -/
def SameMaps (g g2 : Graph) : Prop :=
  g2.mapping = g.mapping ∧ g2.newMapping = g.newMapping ∧ g2.mappingSize = g.mappingSize

/-! ## Theorems -/

/-- C1, counterexample: the status classifier does not return Current
exactly when the commit hash equals the latest revision head commit or
the review is merged at a matching final revision; at `ciC1` the
commit hash equals the latest head commit but the classifier answers
Modified because no local revision is recorded. The classifier reads
only the presence of the local revision and its number, never the
hash and never the merged status. -/
theorem status_current_iff_refuted : ¬claimStatusClassifier := by
  intro h
  have h1 := (h ciC1).1
  have hcur : ciC1.Status = .current := h1.mpr ⟨_, rfl, Or.inl rfl⟩
  exact absurd hcur (by decide)

/-- C1, amended: the classifier is total and answers New exactly when
no review is attached, Modified exactly when a review is attached with
no local revision, Behind exactly when the local revision number
differs from the latest revision number, and Current exactly when they
agree — so exactly one of the four holds for every CommitInfo. -/
theorem Status_characterization (ci : CommitInfo) :
    (ci.Status = .new ↔ ci.review = none) ∧
    (ci.Status = .modified ↔ ∃ r, ci.review = some r ∧ r.localRevision = none) ∧
    (ci.Status = .behind ↔ ∃ r lr, ci.review = some r ∧ r.localRevision = some lr ∧
      lr.number ≠ r.latestRevision.number) ∧
    (ci.Status = .current ↔ ∃ r lr, ci.review = some r ∧ r.localRevision = some lr ∧
      lr.number = r.latestRevision.number) := by
  obtain ⟨c, rv⟩ := ci
  cases rv with
  | none => simp [CommitInfo.Status]
  | some r =>
    cases hl : r.localRevision with
    | none => simp [CommitInfo.Status, hl]
    | some lr =>
      by_cases hn : lr.number = r.latestRevision.number <;>
        simp [CommitInfo.Status, hl, hn]

/-- C2: stack resolution fails with the unique-merge-base error
whenever the backend reports a number of lowest common ancestors other
than one, and proceeds from the single reported ancestor otherwise. -/
theorem load_unique_merge_base (env : LoadEnv) (fuel : Nat) (headCommit : Commit)
    (defaultBranch dh : String) (dc : Commit)
    (href : env.refs (remoteRefName defaultBranch) = some dh)
    (hdc : env.repoCommits dh = some dc) :
    ((env.mergeBases headCommit.hash dc.hash).length ≠ 1 →
      Load env fuel headCommit defaultBranch = .err .uniqueMergeBase) ∧
    (∀ b, env.mergeBases headCommit.hash dc.hash = [b] →
      Load env fuel headCommit defaultBranch = loadWithBase env fuel headCommit b) := by
  constructor
  · intro hne
    unfold Load
    rw [href]; dsimp only
    rw [hdc]; dsimp only
    rcases hmb : env.mergeBases headCommit.hash dc.hash with _ | ⟨b, _ | ⟨b2, t⟩⟩
    · rfl
    · exact absurd (by rw [hmb]; rfl) hne
    · rfl
  · intro b hmb
    unfold Load
    rw [href]; dsimp only
    rw [hdc]; dsimp only
    rw [hmb]

/-- C2, witness: with two reported common ancestors Load fails with
the unique-merge-base error. -/
theorem load_unique_merge_base_witness :
    Load c2env 10 c10head "main" = .err .uniqueMergeBase :=
  (load_unique_merge_base c2env 10 c10head "main" "b" c3base (by decide) (by decide)).1
    (by decide)

/-- C6, counterexample: a merged review whose status is Behind does
not stop the iteration; the step continues, so with two stacked
merged-behind entries the trunk-farther one is examined as well and
overwrites the pending base. At `ciX` (merged, Behind) the step
outcome is a continue, not the break the claim requires. -/
theorem merged_handling_refuted : ¬claimMergedHandling := by
  intro h
  obtain ⟨-, h2, -⟩ :=
    h envC6 ⟨"", none, [], []⟩ ciX ⟨baseX, revX2, some revX1⟩ (by decide) (by decide)
  obtain ⟨st', heq, -, -⟩ := h2 (by decide)
  have hb : (syncStep envC6 ⟨"", none, [], []⟩ ciX).isBrk = true := by
    rw [heq]; rfl
  exact absurd hb (by decide)

/-- C6, amended: during the Sync iteration a merged-review entry with
status Current is skipped with no state change beyond the examine log;
one with status Behind fetches the base branch of the merged latest
revision, records the merged head commit as the pending base, and the
iteration continues (further merged reviews above may follow); and the
conflict failure for a merged review with local modifications is
unreachable, because the classifier only produces the four statuses
and New and Modified already stop the iteration. -/
theorem merged_entry_step (env : SyncEnv) (st : SyncSt) (ci : CommitInfo) (r : Review)
    (hr : ci.review = some r) (hm : r.base.status = .merged) :
    (ci.Status = .current →
      syncStep env st ci = .cont
        { st with events := st.events ++ [.examine ci.commit.hash ci.Status] }) ∧
    (ci.Status = .behind →
      ∀ h, env.remoteBranch r.latestRevision.baseBranch = some h →
      syncStep env st ci = .cont
        { newBase := r.latestRevision.headCommitSHA
          newHeadRef := st.newHeadRef
          git := setRef (setRef st.git (remoteRefName r.latestRevision.baseBranch) h)
            (branchRefName r.latestRevision.baseBranch) h
          events := st.events ++ [.examine ci.commit.hash ci.Status,
            .fetch r.latestRevision.baseBranch] }) ∧
    (∀ id st', syncStep env st ci ≠ .fail (.conflict id) st') := by
  refine ⟨?_, ?_, ?_⟩
  · intro hcur
    simp [syncStep, hr, hcur, hm]
  · intro hbe h hpull
    simp [syncStep, hr, hbe, hm, pullBranch, hpull]
  · intro id st' heq
    rcases hst : ci.Status with _ | _ | _ | _ <;>
      [skip; simp [syncStep, hr, hst, hm, pullBranch] at heq;
       simp [syncStep, hr, hst, hm, pullBranch] at heq;
       simp [syncStep, hr, hst, hm, pullBranch] at heq]
    simp only [syncStep, hr, hst, hm, pullBranch] at heq
    rcases hpb : env.remoteBranch r.latestRevision.baseBranch with _ | hh <;>
      simp [hpb] at heq

/-- C6, witness: the amended step applied to the merged, behind entry
X with a fetchable base branch; the step continues with the merged
head commit M recorded as the pending base. -/
theorem merged_entry_step_witness :
    syncStep envC6 ⟨"", none, [], []⟩ ciX = .cont
      { newBase := "M"
        newHeadRef := none
        git := setRef (setRef [] (remoteRefName "main") "M") (branchRefName "main") "M"
        events := [.examine "x" .behind, .fetch "main"] } :=
  (merged_entry_step envC6 ⟨"", none, [], []⟩ ciX ⟨baseX, revX2, some revX1⟩
    (by decide) (by decide)).2.1 (by decide) "M" (by decide)

/-- C7, counterexample: scenario B (stack Z unpublished, Y current, X
merged and behind) does not produce the rebase directive with count 2;
the run produces target M with count 1, because the merged entry X is
consumed and iteration continues through Y before stopping at Z. -/
theorem must_rebase_count_refuted : ¬claimMustRebaseCount := by
  intro h
  obtain ⟨evs, heq, -⟩ := h.2
  have h2 : (syncStack envB "refs/heads/feature" [ciZ, ciY, ciX]).rebaseTargetCount =
      some ("M", 2) := by rw [heq]; rfl
  exact absurd h2 (by decide)

/-- C7, amended: whenever the Sync loop breaks at index i (a New or
Modified entry) with a pending base recorded, Sync fails with the
rebase directive whose target is that base and whose count is i + 1 —
the entries from the stopping entry to HEAD inclusive, one more than
the entries strictly nearer HEAD; and scenario B yields target M with
count 1 and performs no branch repoint. -/
theorem must_rebase_epilogue :
    (∀ (env : SyncEnv) (headRefName : String) (stack : CommitStack) (i : Int) (st : SyncSt),
      syncLoop env stack stack.length ⟨"", none, [], []⟩ = .done i st →
      0 ≤ i → st.newBase ≠ "" →
      syncStack env headRefName stack = .mustRebase st.newBase (i + 1).toNat st.events) ∧
    (∃ evs, syncStack envB "refs/heads/feature" [ciZ, ciY, ciX] = .mustRebase "M" 1 evs ∧
      ∀ e ∈ evs, e.isRepoint = false) := by
  constructor
  · intro env hd stack i st hloop h0 hnb
    unfold syncStack
    rw [hloop]
    simp [h0, hnb]
  · exact ⟨scenBEvents, by decide, by decide⟩

/-- C7, witness: the amended epilogue applied to the scenario B run. -/
theorem must_rebase_epilogue_witness :
    syncStack envB "refs/heads/feature" [ciZ, ciY, ciX] =
      .mustRebase stB.newBase ((0 : Int) + 1).toNat stB.events :=
  must_rebase_epilogue.1 envB "refs/heads/feature" [ciZ, ciY, ciX] 0 stB
    (by decide) (by decide) (by decide)

/-- C8: for an open review whose post-sync latest head commit differs
from the local commit hash, the step fetches the review head branch
exactly once, then fails with the wrong-hash (remote inconsistency)
error whenever the fetched hash differs from the head the service just
reported, with no retry; only when the hashes agree does the step
record the branch name as the pending base. -/
theorem open_review_remote_inconsistency (env : SyncEnv) (st : SyncSt) (ci : CommitInfo)
    (r : Review) (ur : SyncUpdatedRevision) (rest : List SyncUpdatedRevision) (h : String)
    (hr : ci.review = some r) (hopen : r.base.status = .opened)
    (hst : ci.Status = .current ∨ ci.Status = .behind)
    (hu : (env.syncReviewWithParent r.base.id).latestRevisions = ur :: rest)
    (hne : ur.headCommitSHA ≠ ci.commit.hash)
    (hrb : env.remoteBranch r.base.headBranch = some h) :
    (h ≠ ur.headCommitSHA →
      syncStep env st ci = .fail (.wrongHash r.base.headBranch h ur.headCommitSHA)
        { newBase := st.newBase
          newHeadRef := st.newHeadRef
          git := setRef (setRef st.git (remoteRefName r.base.headBranch) h)
            (branchRefName r.base.headBranch) h
          events := st.events ++ [.examine ci.commit.hash ci.Status,
            .syncReview r.base.id, .fetch r.base.headBranch] }) ∧
    (h = ur.headCommitSHA →
      syncStep env st ci = .cont
        { newBase := r.base.headBranch
          newHeadRef := some h
          git := setRef (setRef st.git (remoteRefName r.base.headBranch) h)
            (branchRefName r.base.headBranch) h
          events := st.events ++ [.examine ci.commit.hash ci.Status,
            .syncReview r.base.id, .fetch r.base.headBranch] }) := by
  have hnn : ¬(ci.Status = .new ∨ ci.Status = .modified) := by
    rcases hst with h1 | h1 <;> rw [h1] <;> decide
  have hnd : r.base.status ≠ .deleted := by rw [hopen]; decide
  have hnm : r.base.status ≠ .merged := by rw [hopen]; decide
  have hgr : getRef
      (setRef (setRef st.git (remoteRefName r.base.headBranch) h)
        (branchRefName r.base.headBranch) h)
      (branchRefName r.base.headBranch) = some h := by
    simp [getRef, setRef, List.find?]
  constructor
  · intro hneq
    simp only [syncStep, hr, hnn, if_false, hnd, hnm, if_neg, pullBranch, hrb, hu]
    simp [hne, hgr, hneq]
  · intro heq
    subst heq
    simp only [syncStep, hr, hnn, if_false, hnd, hnm, if_neg, pullBranch, hrb, hu]
    simp [hne, hgr]

/-- C8, witness: a concrete open review whose post-sync head y2
differs from the local commit y; the fetched branch hash equals the
reported head, so the branch is recorded as the pending base. -/
theorem open_review_remote_inconsistency_witness :
    syncStep c8env ⟨"", none, [], []⟩ c8ci = .cont
      { newBase := "b-y"
        newHeadRef := some "y2"
        git := setRef (setRef [] (remoteRefName "b-y") "y2") (branchRefName "b-y") "y2"
        events := [.examine "y" .current, .syncReview "R200", .fetch "b-y"] } :=
  (open_review_remote_inconsistency c8env ⟨"", none, [], []⟩ c8ci
    ⟨baseY, revY1, some revY1⟩ ⟨2, "y2", "b-x", "x"⟩ [] "y2"
    (by decide) (by decide) (Or.inl (by decide)) (by decide) (by decide) (by decide)).2 rfl

/-- C3, counterexample: at `c3env` the walk stops through a local
match of review R1 whose recorded parent revision is absent, yet Load
continues remotely — the starting revision falls back to the fresh
latest revision of the parent review recorded by the latest revision,
and the linked entry for R0 is appended, so the resolved stack is not
the walked prefix the claim requires. -/
theorem start_revision_claim_refuted : ¬claimStartRevision := by
  intro h
  have h2 := h c3env 10 c3head "b" [c3walkEntry] ["R1"] (some c3pRev) (by decide)
  exact absurd h2 (by decide)

/-- C3, amended: the starting revision is the recorded parent of the
local revision when present; when it is absent — whether or not the
walk stopped on a local match — and the last latest revision recorded
a parent, it is the latest revision of that parent review queried
afresh; only when both are absent is there no remote continuation, and
a starting revision hands over to the linked-revision phase. -/
theorem determine_start_spec :
    (∀ (env : LoadEnv) (p : Revision) (latp : Option Revision),
      determineStart env (some p) latp = .ok (some p)) ∧
    (∀ (env : LoadEnv) (q r : Revision) (rest : List Revision),
      env.latestOfReview q.reviewID = r :: rest →
      determineStart env none (some q) = .ok (some r)) ∧
    (∀ env : LoadEnv, determineStart env none none = .ok none) ∧
    (∀ (env : LoadEnv) (fuel : Nat) (headCommit : Commit) (baseHash : String)
      (flag : Bool) (s : CommitStack) (visited : List String),
      walkStack env baseHash fuel headCommit [] [] none none = .out flag s visited none none →
      loadWithBase env fuel headCommit baseHash = .ok s) ∧
    (∀ (env : LoadEnv) (fuel : Nat) (headCommit : Commit) (baseHash : String)
      (flag : Bool) (s : CommitStack) (visited : List String)
      (lrp latp : Option Revision) (sr : Revision),
      walkStack env baseHash fuel headCommit [] [] none none = .out flag s visited lrp latp →
      determineStart env lrp latp = .ok (some sr) →
      loadWithBase env fuel headCommit baseHash =
        linkedPhase env visited s (env.linkedRevisions sr.reviewID sr.number).reverse) := by
  refine ⟨?_, ?_, ?_, ?_, ?_⟩
  · intro env p latp; rfl
  · intro env q r rest hq
    unfold determineStart
    simp only [hq]
  · intro env; rfl
  · intro env fuel headCommit baseHash flag s visited hw
    unfold loadWithBase
    rw [hw]
    rfl
  · intro env fuel headCommit baseHash flag s visited lrp latp sr hw hd
    unfold loadWithBase
    rw [hw]; dsimp only
    simp only [hd]

/-- C3, witness: the fresh-latest fallback applied at the fixture: the
recorded parent revision of R0 has number 3, the starting revision is
the fresh latest revision of R0 with number 4. -/
theorem determine_start_spec_witness :
    determineStart c3env none (some c3pRev) = .ok (some c3fresh) :=
  determine_start_spec.2.1 c3env c3pRev c3fresh [] (by decide)

/-- C4, counterexample: with the linked-revision answer listing review
R0 twice, both copies are appended and the resolved stack carries the
review ID R0 in two distinct entries — the loop never adds the
processed linked review IDs to the visited set. -/
theorem no_duplicate_review_ids_refuted : ¬claimNoDuplicateReviewIDs := by
  intro h
  have h2 := h c4env 10 c3head "main" [c3walkEntry, c4linkedEntry, c4linkedEntry] (by decide)
  exact absurd h2 (by decide)

/-- The walk puts the trailer review ID of every reviewed entry it
appends into the visited set; with an echoing service that ID is the
review ID of the entry. The visited set only grows. -/
theorem walkStack_visited (env : LoadEnv) (hecho : EchoIDs env) (baseHash : String) :
    ∀ (fuel : Nat) (c : Commit) (s : CommitStack) (v : List String)
      (lrp latp : Option Revision) (flag : Bool) (s' : CommitStack) (v' : List String)
      (lrp' latp' : Option Revision),
      walkStack env baseHash fuel c s v lrp latp = .out flag s' v' lrp' latp' →
      (∀ ci ∈ s', ci ∈ s ∨ ∀ r, ci.review = some r → r.base.id ∈ v') ∧ v ⊆ v' := by
  intro fuel
  induction fuel with
  | zero => intro c s v lrp latp flag s' v' lrp' latp' hw; exact absurd hw (by simp [walkStack])
  | succ n ih =>
    intro c s v lrp latp flag s' v' lrp' latp' hw
    unfold walkStack at hw
    by_cases hb : c.hash = baseHash
    · simp only [if_pos hb, WalkResult.out.injEq] at hw
      obtain ⟨rfl, rfl, rfl, rfl, rfl⟩ := hw
      exact ⟨fun ci hci => Or.inl hci, fun x hx => hx⟩
    · simp only [if_neg hb] at hw
      rcases hp : c.parentHashes with _ | ⟨pHash, prest⟩
      · simp [hp] at hw
      · simp only [hp] at hw
        rcases hn : env.repoCommits pHash with _ | nextCommit
        · simp [hn] at hw
        · simp only [hn] at hw
          by_cases hid : c.reviewID = ""
          · simp only [if_pos hid] at hw
            obtain ⟨hmem, hsub⟩ := ih _ _ _ _ _ _ _ _ _ _ hw
            refine ⟨fun ci hci => ?_, hsub⟩
            rcases hmem ci hci with hin | hrev
            · rcases List.mem_append.mp hin with h1 | h1
              · exact Or.inl h1
              · refine Or.inr fun r hr => ?_
                simp only [List.mem_singleton] at h1
                rw [h1] at hr
                exact absurd hr (by simp)
            · exact Or.inr hrev
          · simp only [if_neg hid] at hw
            rcases hq : (env.reviewQuery c.reviewID c.hash).latestRevisions with _ | ⟨latest, lrest⟩
            · simp [hq] at hw
            · simp only [hq] at hw
              rcases hl : (env.reviewQuery c.reviewID c.hash).localRevisions with _ | ⟨l, llrest⟩
              · simp only [hl] at hw
                obtain ⟨hmem, hsub⟩ := ih _ _ _ _ _ _ _ _ _ _ hw
                have hsub' : v ⊆ v' := fun x hx => hsub (List.mem_cons_of_mem _ hx)
                refine ⟨fun ci hci => ?_, hsub'⟩
                rcases hmem ci hci with hin | hrev
                · rcases List.mem_append.mp hin with h1 | h1
                  · exact Or.inl h1
                  · refine Or.inr fun r hr => ?_
                    simp only [List.mem_singleton] at h1
                    rw [h1] at hr
                    injection hr with hr2
                    rw [← hr2]
                    simp only [hecho c.reviewID c.hash]
                    exact hsub (List.mem_cons_self _ _)
                · exact Or.inr hrev
              · simp only [hl, WalkResult.out.injEq] at hw
                obtain ⟨rfl, rfl, rfl, rfl, rfl⟩ := hw
                refine ⟨fun ci hci => ?_, fun x hx => List.mem_cons_of_mem _ hx⟩
                rcases List.mem_append.mp hci with h1 | h1
                · exact Or.inl h1
                · refine Or.inr fun r hr => ?_
                  simp only [List.mem_singleton] at h1
                  rw [h1] at hr
                  injection hr with hr2
                  rw [← hr2]
                  simp only [hecho c.reviewID c.hash]
                  exact List.mem_cons_self _ _

/-- Every entry appended by the linked-revision phase carries a review
ID that the visited set did not contain: the phase filters its input
against the visited set. -/
theorem linkedPhase_mem (env : LoadEnv) (visited : List String) :
    ∀ (l : List LinkedRevision) (s out : CommitStack),
      linkedPhase env visited s l = .ok out →
      ∀ ci ∈ out, ci ∈ s ∨ ∀ r, ci.review = some r →
        visited.contains r.base.id = false := by
  intro l
  induction l with
  | nil =>
    intro s out h ci hci
    obtain rfl : s = out := by simpa [linkedPhase] using h
    exact Or.inl hci
  | cons lr rest ih =>
    intro s out h ci hci
    unfold linkedPhase at h
    by_cases hv : visited.contains lr.review.base.id = true
    · rw [if_pos hv] at h
      exact ih _ _ h ci hci
    · rw [if_neg hv] at h
      rcases hlat : lr.review.latestRevisions with _ | ⟨latest, lrest⟩
      · simp [hlat] at h
      · simp only [hlat] at h
        rcases ih _ _ h ci hci with hin | hP
        · rcases List.mem_append.mp hin with h1 | h1
          · exact Or.inl h1
          · right
            intro r hr
            simp only [List.mem_singleton] at h1
            rw [h1] at hr
            injection hr with hr2
            rw [← hr2]
            simpa using hv
        · exact Or.inr hP

/-- The review IDs of a stack extended by one reviewed entry. -/
theorem stackReviewIDs_append_entry (s : CommitStack) (c : Commit) (r : Review) :
    stackReviewIDs (s ++ [⟨c, some r⟩]) = stackReviewIDs s ++ [r.base.id] := by
  simp [stackReviewIDs]

/-- When the incoming stack has pairwise distinct review IDs that are
each visited or absent from the linked input, and the linked input
itself repeats no review ID, the phase yields a stack with pairwise
distinct review IDs. -/
theorem linkedPhase_nodup (env : LoadEnv) (visited : List String) :
    ∀ (l : List LinkedRevision) (s out : CommitStack),
      linkedPhase env visited s l = .ok out →
      (stackReviewIDs s).Nodup →
      (∀ id ∈ stackReviewIDs s, id ∈ visited ∨
        id ∉ l.map (fun lr => lr.review.base.id)) →
      (l.map (fun lr => lr.review.base.id)).Nodup →
      (stackReviewIDs out).Nodup := by
  intro l
  induction l with
  | nil =>
    intro s out h hnd _ _
    obtain rfl : s = out := by simpa [linkedPhase] using h
    exact hnd
  | cons lr rest ih =>
    intro s out h hnd hinv hlnd
    rw [List.map_cons] at hlnd
    have hlnd2 := List.nodup_cons.mp hlnd
    unfold linkedPhase at h
    by_cases hv : visited.contains lr.review.base.id = true
    · rw [if_pos hv] at h
      refine ih _ _ h hnd ?_ hlnd2.2
      intro id hid
      rcases hinv id hid with h1 | h1
      · exact Or.inl h1
      · right
        intro hmem
        exact h1 (by simp only [List.map_cons, List.mem_cons]; exact Or.inr hmem)
    · rw [if_neg hv] at h
      rcases hlat : lr.review.latestRevisions with _ | ⟨latest, lrest⟩
      · simp [hlat] at h
      · simp only [hlat] at h
        have hid0 : lr.review.base.id ∉ stackReviewIDs s := by
          intro hmem
          rcases hinv _ hmem with h1 | h1
          · exact hv (by simpa using h1)
          · exact h1 (by simp)
        refine ih _ _ h ?_ ?_ hlnd2.2
        · rw [stackReviewIDs_append_entry]
          simpa [List.nodup_append] using ⟨hnd, hid0⟩
        · intro id hid
          rw [stackReviewIDs_append_entry] at hid
          rcases List.mem_append.mp hid with h1 | h1
          · rcases hinv id h1 with h2 | h2
            · exact Or.inl h2
            · right
              intro hmem
              exact h2 (by simp only [List.map_cons, List.mem_cons]; exact Or.inr hmem)
          · simp only [List.mem_singleton] at h1
            subst h1
            exact Or.inr hlnd2.1

/-- C4, amended: during the walk every reviewed entry puts its review
ID into the visited set (with an ID-echoing service); the
linked-revision phase appends only entries whose review ID is not in
the visited set, silently omitting the rest; and the resolved stack
has pairwise distinct review IDs provided the walked prefix already
had distinct, visited IDs and the linked-revision input repeats no
review ID. Review IDs are not tracked within the linked phase itself,
nor deduplicated between walked entries. -/
theorem linked_phase_duplicate_filtering :
    (∀ (env : LoadEnv), EchoIDs env → ∀ (baseHash : String) (fuel : Nat) (c : Commit)
      (flag : Bool) (s' : CommitStack) (v' : List String) (lrp' latp' : Option Revision),
      walkStack env baseHash fuel c [] [] none none = .out flag s' v' lrp' latp' →
      ∀ ci ∈ s', ∀ r, ci.review = some r → r.base.id ∈ v') ∧
    (∀ (env : LoadEnv) (visited : List String) (l : List LinkedRevision)
      (s out : CommitStack),
      linkedPhase env visited s l = .ok out →
      ∀ ci ∈ out, ci ∈ s ∨ ∀ r, ci.review = some r →
        visited.contains r.base.id = false) ∧
    (∀ (env : LoadEnv) (visited : List String) (l : List LinkedRevision)
      (s out : CommitStack),
      linkedPhase env visited s l = .ok out →
      (stackReviewIDs s).Nodup →
      (∀ id ∈ stackReviewIDs s, id ∈ visited ∨
        id ∉ l.map (fun lr => lr.review.base.id)) →
      (l.map (fun lr => lr.review.base.id)).Nodup →
      (stackReviewIDs out).Nodup) := by
  refine ⟨?_, ?_, ?_⟩
  · intro env hecho baseHash fuel c flag s' v' lrp' latp' hw ci hci r hr
    rcases (walkStack_visited env hecho baseHash fuel c [] [] none none flag s' v'
      lrp' latp' hw).1 ci hci with h1 | h1
    · exact absurd h1 (List.not_mem_nil _)
    · exact h1 r hr
  · exact fun env visited l s out h => linkedPhase_mem env visited l s out h
  · exact fun env visited l s out h => linkedPhase_nodup env visited l s out h

/-- C4, witness: the filtering conjunct applied to the duplicated
linked input of the counterexample run; the appended entry for R0 is
not among the walked entries and its review ID was not visited. -/
theorem linked_phase_duplicate_filtering_witness :
    c4linkedEntry ∈ ([c3walkEntry] : CommitStack) ∨
      ∀ r, c4linkedEntry.review = some r →
        (["R1"] : List String).contains r.base.id = false :=
  linked_phase_duplicate_filtering.2.1 c4env ["R1"] [c4linked, c4linked] [c3walkEntry]
    [c3walkEntry, c4linkedEntry, c4linkedEntry] (by decide) c4linkedEntry (by decide)

/-- C5, counterexample: the entry appended for the linked revision of
R0 carries the linked revision (number 3) as its local revision and
the current latest revision of R0 (number 4) as its latest revision —
the two are distinct revisions, refuting the claim that every
linked-phase entry carries the linked revision as both. -/
theorem linked_latest_equals_local_refuted : ¬claimLinkedLatestEqualsLocal := by
  intro h
  have h2 := h c4env ["R1"] [c3walkEntry] [c4linked, c4linked]
    [c3walkEntry, c4linkedEntry, c4linkedEntry] (by decide) c4linkedEntry (by decide)
  rcases h2 with hmem | hall
  · exact absurd hmem (by decide)
  · exact absurd (hall ⟨c3baseR0, c3fresh, some c3pRev⟩ (by decide)) (by decide)

/-- C5, amended: every entry appended by the linked-revision phase
carries the linked revision as its local revision and the latest
revision delivered by the same linked-revisions answer as its latest
revision; the two coincide only when the linked revision is still the
latest revision of its review. -/
theorem linked_phase_revisions (env : LoadEnv) (visited : List String) :
    ∀ (l : List LinkedRevision) (s out : CommitStack),
      linkedPhase env visited s l = .ok out →
      ∀ ci ∈ out, ci ∈ s ∨ ∃ lr ∈ l, ∃ latest rest,
        lr.review.latestRevisions = latest :: rest ∧
        ci.review = some ⟨lr.review.base, latest, some lr.revision⟩ := by
  intro l
  induction l with
  | nil =>
    intro s out h ci hci
    obtain rfl : s = out := by simpa [linkedPhase] using h
    exact Or.inl hci
  | cons lr rest ih =>
    intro s out h ci hci
    unfold linkedPhase at h
    by_cases hv : visited.contains lr.review.base.id = true
    · rw [if_pos hv] at h
      rcases ih _ _ h ci hci with h1 | ⟨lr2, hlr2, hex⟩
      · exact Or.inl h1
      · exact Or.inr ⟨lr2, List.mem_cons_of_mem _ hlr2, hex⟩
    · rw [if_neg hv] at h
      rcases hlat : lr.review.latestRevisions with _ | ⟨latest, lrest⟩
      · simp [hlat] at h
      · simp only [hlat] at h
        rcases ih _ _ h ci hci with hin | ⟨lr2, hlr2, hex⟩
        · rcases List.mem_append.mp hin with h1 | h1
          · exact Or.inl h1
          · simp only [List.mem_singleton] at h1
            exact Or.inr ⟨lr, List.mem_cons_self _ _,
              latest, lrest, hlat, by rw [h1]⟩
        · exact Or.inr ⟨lr2, List.mem_cons_of_mem _ hlr2, hex⟩

/-- C5, witness: the amended description applied to the appended R0
entry of the counterexample run. -/
theorem linked_phase_revisions_witness :
    c4linkedEntry ∈ ([c3walkEntry] : CommitStack) ∨
      ∃ lr ∈ ([c4linked, c4linked] : List LinkedRevision), ∃ latest rest,
        lr.review.latestRevisions = latest :: rest ∧
        c4linkedEntry.review = some ⟨lr.review.base, latest, some lr.revision⟩ :=
  linked_phase_revisions c4env ["R1"] [c4linked, c4linked] [c3walkEntry]
    [c3walkEntry, c4linkedEntry, c4linkedEntry] (by decide) c4linkedEntry (by decide)

/-- When the walk reaches a parentless commit other than the merge
base, the walk aborts on the unchecked parent index, whatever
accumulator state it carries. -/
theorem walkStack_hitsRoot (env : LoadEnv) (baseHash : String) :
    ∀ (fuel : Nat) (c : Commit) (s : CommitStack) (v : List String)
      (lrp latp : Option Revision),
      walkHitsRoot env fuel c baseHash = true →
      walkStack env baseHash fuel c s v lrp latp = .aborted := by
  intro fuel
  induction fuel with
  | zero => intro c s v lrp latp hx; simp [walkHitsRoot] at hx
  | succ n ih =>
    intro c s v lrp latp hx
    unfold walkHitsRoot at hx
    unfold walkStack
    by_cases hb : c.hash = baseHash
    · rw [if_pos hb] at hx; exact absurd hx (by simp)
    · rw [if_neg hb] at hx
      rw [if_neg hb]
      rcases hp : c.parentHashes with _ | ⟨pHash, prest⟩
      · simp [hp]
      · simp only [hp] at hx ⊢
        rcases hn : env.repoCommits pHash with _ | nextCommit
        · simp only [hn] at hx; exact absurd hx (by simp)
        · simp only [hn] at hx ⊢
          by_cases hid : c.reviewID = ""
          · rw [if_pos hid] at hx
            rw [if_pos hid]
            exact ih _ _ _ _ _ hx
          · rw [if_neg hid] at hx
            rw [if_neg hid]
            rcases hq : (env.reviewQuery c.reviewID c.hash).latestRevisions with
              _ | ⟨latest, lrest⟩
            · simp only [hq] at hx; exact absurd hx (by simp)
            · simp only [hq] at hx ⊢
              rcases hl : (env.reviewQuery c.reviewID c.hash).localRevisions with
                _ | ⟨l, llrest⟩
              · simp only [hl] at hx ⊢
                exact ih _ _ _ _ _ hx
              · simp only [hl] at hx; exact absurd hx (by simp)

/-- When the first-parent chain reaches the merge base and every
review query delivers a latest revision, the walk ends in a normal
loop exit, whatever accumulator state it carries. -/
theorem walkStack_hitsBase (env : LoadEnv) (baseHash : String)
    (hwf : ∀ id sha, (env.reviewQuery id sha).latestRevisions ≠ []) :
    ∀ (fuel : Nat) (c : Commit) (s : CommitStack) (v : List String)
      (lrp latp : Option Revision),
      chainStatus env fuel c baseHash = .hitsBase →
      ∃ flag s' v' lrp' latp',
        walkStack env baseHash fuel c s v lrp latp = .out flag s' v' lrp' latp' := by
  intro fuel
  induction fuel with
  | zero => intro c s v lrp latp hx; simp [chainStatus] at hx
  | succ n ih =>
    intro c s v lrp latp hx
    unfold chainStatus at hx
    unfold walkStack
    by_cases hb : c.hash = baseHash
    · rw [if_pos hb]
      exact ⟨_, _, _, _, _, rfl⟩
    · rw [if_neg hb] at hx
      rw [if_neg hb]
      rcases hp : c.parentHashes with _ | ⟨pHash, prest⟩
      · simp only [hp] at hx; exact absurd hx (by simp)
      · simp only [hp] at hx ⊢
        rcases hn : env.repoCommits pHash with _ | nextCommit
        · simp only [hn] at hx; exact absurd hx (by simp)
        · simp only [hn] at hx ⊢
          by_cases hid : c.reviewID = ""
          · rw [if_pos hid]
            exact ih _ _ _ _ _ hx
          · rw [if_neg hid]
            rcases hq : (env.reviewQuery c.reviewID c.hash).latestRevisions with
              _ | ⟨latest, lrest⟩
            · exact absurd hq (hwf _ _)
            · rcases hl : (env.reviewQuery c.reviewID c.hash).localRevisions with
                _ | ⟨l, llrest⟩
              · exact ih _ _ _ _ _ hx
              · exact ⟨_, _, _, _, _, rfl⟩

/-- The linked-revision phase succeeds whenever every element of its
input carries a latest revision. -/
theorem linkedPhase_ok (env : LoadEnv) (visited : List String) :
    ∀ (l : List LinkedRevision) (s : CommitStack),
      (∀ lr ∈ l, lr.review.latestRevisions ≠ []) →
      ∃ out, linkedPhase env visited s l = .ok out := by
  intro l
  induction l with
  | nil => intro s _; exact ⟨s, rfl⟩
  | cons lr rest ih =>
    intro s hwf
    unfold linkedPhase
    by_cases hv : visited.contains lr.review.base.id = true
    · rw [if_pos hv]
      exact ih _ fun x hx => hwf x (List.mem_cons_of_mem _ hx)
    · rw [if_neg hv]
      rcases hlat : lr.review.latestRevisions with _ | ⟨latest, lrest⟩
      · exact absurd hlat (hwf lr (List.mem_cons_self _ _))
      · exact ih _ fun x hx => hwf x (List.mem_cons_of_mem _ hx)

/-- C10, counterexample: at `c10env` the first-parent chain of the
head commit reaches the parentless commit h0 before the merge base b,
yet Load does not abort; the walk breaks on the local-revision match
at the head commit before visiting h0, so the index-0 access the claim
points at is never reached. -/
theorem parent_index_abort_refuted : ¬claimParentIndexAbort := by
  intro h
  have hwf : WellFormedEnv c10env := by
    refine ⟨fun id sha => ?_, fun id => by simp [c10env], fun id n lr hmem => ?_⟩
    · unfold c10env
      dsimp only
      split <;> simp
    · simp [c10env] at hmem
  have h2 := (h c10env 2 c10head "main" "b" c3base "b" hwf (by decide) (by decide)
    (by decide)).2 (by decide)
  exact absurd h2 (by decide)

/-- C10, amended: with a unique merge base, Load aborts on the
unchecked parent index exactly when the walk actually visits a
parentless commit other than the merge base — that is, when no
local-revision match stops the walk first; and when the first-parent
chain reaches the merge base before any parentless commit, a
well-formed service makes Load return a stack with no abort. -/
theorem walk_parent_index_abort :
    (∀ (env : LoadEnv) (fuel : Nat) (headCommit : Commit) (defaultBranch dh : String)
      (dc : Commit) (baseHash : String),
      WellFormedEnv env →
      env.refs (remoteRefName defaultBranch) = some dh →
      env.repoCommits dh = some dc →
      env.mergeBases headCommit.hash dc.hash = [baseHash] →
      chainStatus env fuel headCommit baseHash = .hitsBase →
      ∃ s, Load env fuel headCommit defaultBranch = .ok s) ∧
    (∀ (env : LoadEnv) (fuel : Nat) (headCommit : Commit) (defaultBranch dh : String)
      (dc : Commit) (baseHash : String),
      env.refs (remoteRefName defaultBranch) = some dh →
      env.repoCommits dh = some dc →
      env.mergeBases headCommit.hash dc.hash = [baseHash] →
      walkHitsRoot env fuel headCommit baseHash = true →
      Load env fuel headCommit defaultBranch = .aborted) := by
  constructor
  · intro env fuel headCommit defaultBranch dh dc baseHash hwf href hdc hmb hchain
    obtain ⟨hwf1, hwf2, hwf3⟩ := hwf
    unfold Load
    rw [href]; dsimp only
    rw [hdc]; dsimp only
    rw [hmb]; dsimp only
    obtain ⟨flag, s', v', lrp', latp', hws⟩ :=
      walkStack_hitsBase env baseHash hwf1 fuel headCommit [] [] none none hchain
    unfold loadWithBase
    rw [hws]; dsimp only
    rcases lrp' with _ | p
    · rcases latp' with _ | q
      · exact ⟨s', rfl⟩
      · rcases hlq : env.latestOfReview q.reviewID with _ | ⟨r0, rrest⟩
        · exact absurd hlq (hwf2 _)
        · simp only [determineStart, hlq]
          obtain ⟨out, hout⟩ := linkedPhase_ok env v'
            (env.linkedRevisions r0.reviewID r0.number).reverse s'
            (fun x hx => hwf3 _ _ _ (List.mem_reverse.mp hx))
          exact ⟨out, hout⟩
    · simp only [determineStart]
      obtain ⟨out, hout⟩ := linkedPhase_ok env v'
        (env.linkedRevisions p.reviewID p.number).reverse s'
        (fun x hx => hwf3 _ _ _ (List.mem_reverse.mp hx))
      exact ⟨out, hout⟩
  · intro env fuel headCommit defaultBranch dh dc baseHash href hdc hmb hroot
    unfold Load
    rw [href]; dsimp only
    rw [hdc]; dsimp only
    rw [hmb]; dsimp only
    unfold loadWithBase
    rw [walkStack_hitsRoot env baseHash fuel headCommit [] [] none none hroot]

/-- C10, witness: without the local-revision match the walk visits the
parentless commit h0 and Load aborts on the parent index. -/
theorem walk_parent_index_abort_witness :
    Load c10envB 2 c10head "main" = .aborted :=
  walk_parent_index_abort.2 c10envB 2 c10head "main" "b" c3base "b"
    (by decide) (by decide) (by decide) (by decide)

/-! ### Renderer invariant: updateColumns -/

/-- Cleared mapping positions read −1. -/
theorem clearMapping_lt (m : Int → Int) :
    ∀ (n i : Nat), i < n → clearMapping m n i = -1 := by
  intro n
  induction n with
  | zero => intro i h; exact absurd h (Nat.not_lt_zero _)
  | succ k ih =>
    intro i h
    unfold clearMapping fupd
    by_cases he : (i : Int) = (k : Int)
    · simp [he]
    · have : i < k := by omega
      simp only [he, if_false]
      exact ih i this

/-- Clearing preserves zero at negative keys. -/
theorem clearMapping_neg (m : Int → Int) (hm : ZeroNegF m) :
    ∀ n : Nat, ZeroNegF (clearMapping m n) := by
  intro n
  induction n with
  | zero => exact hm
  | succ k ih =>
    intro j hj
    unfold clearMapping fupd
    have : j ≠ (k : Int) := by omega
    simp only [this, if_false]
    exact ih j hj

/-- A found column index is below the store length. -/
theorem listFindIdx_lt (c : ColCommit) :
    ∀ (l : List ColCommit) (i : Nat), listFindIdx l c = some i → i < l.length := by
  intro l
  induction l with
  | nil => intro i h; simp [listFindIdx] at h
  | cons a t ih =>
    intro i h
    unfold listFindIdx at h
    by_cases ha : a = c
    · rw [if_pos ha] at h
      injection h with h2
      simp only [List.length_cons]
      omega
    · rw [if_neg ha] at h
      rcases hf : listFindIdx t c with _ | j
      · rw [hf] at h; exact absurd h (by simp)
      · rw [hf] at h
        have h' : some (j + 1) = some i := h
        injection h' with h2
        have := ih j hf
        simp only [List.length_cons]
        omega

/-- insertIntoNewColumns preserves the population-loop invariant. -/
theorem insertIntoNewColumns_inv (bound : Nat) (st : UCState) (c : ColCommit)
    (h : UCInv bound st) : UCInv bound (insertIntoNewColumns st c) := by
  obtain ⟨h1, h2, h3⟩ := h
  unfold insertIntoNewColumns
  rcases hf : listFindIdx st.newColumns c with _ | i
  all_goals simp only [hf]
  · refine ⟨?_, ?_, ?_⟩
    · dsimp only
      simp only [List.length_append, List.length_cons, List.length_nil]
      push_cast
      omega
    · intro j hj hpos
      dsimp only [fupd] at hpos ⊢
      by_cases he : (j : Int) = (st.mappingIdx : Int)
      · rw [if_pos he] at hpos ⊢
        omega
      · rw [if_neg he] at hpos ⊢
        exact h2 j hj hpos
    · intro k hk
      dsimp only [fupd]
      rw [if_neg (show ¬(k = (st.mappingIdx : Int)) by omega)]
      exact h3 k hk
  · have hlt := listFindIdx_lt c _ _ hf
    refine ⟨?_, ?_, ?_⟩
    · dsimp only
      push_cast
      omega
    · intro j hj hpos
      dsimp only [fupd] at hpos ⊢
      by_cases he : (j : Int) = (st.mappingIdx : Int)
      · rw [if_pos he] at hpos ⊢
        omega
      · rw [if_neg he] at hpos ⊢
        exact h2 j hj hpos
    · intro k hk
      dsimp only [fupd]
      rw [if_neg (show ¬(k = (st.mappingIdx : Int)) by omega)]
      exact h3 k hk

/-- insertParents preserves the population-loop invariant. -/
theorem insertParents_inv (bound : Nat) :
    ∀ (ps : List ColCommit) (st : UCState),
      UCInv bound st → UCInv bound (insertParents st ps) := by
  intro ps
  induction ps with
  | nil => intro st h; exact h
  | cons p rest ih =>
    intro st h
    exact ih _ (insertIntoNewColumns_inv bound st p h)

/-- The loop body preserves the population-loop invariant. -/
theorem ucBody_inv (bound : Nat) (cptr : ColCommit) (parents : List ColCommit)
    (i : Nat) (colCommit : ColCommit) (st : UCState) (h : UCInv bound st) :
    UCInv bound (ucBody cptr parents i colCommit st) := by
  unfold ucBody
  by_cases he : colCommit = cptr
  · rw [if_pos he]
    have h2 : UCInv bound { st with seenThis := true, commitIndex := i } := h
    have h3 := insertParents_inv bound parents _ h2
    dsimp only
    split
    · exact ⟨by obtain ⟨a, -, -⟩ := h3; dsimp only at a ⊢; omega, h3.2.1, h3.2.2⟩
    · exact h3
  · rw [if_neg he]
    exact insertIntoNewColumns_inv bound st colCommit h

/-- The population loop preserves the invariant. -/
theorem ucLoop_inv (cols : List ColCommit) (cptr : ColCommit)
    (parents : List ColCommit) (bound : Nat) :
    ∀ (r i : Nat) (st : UCState),
      UCInv bound st → UCInv bound (ucLoop cols cptr parents r i st) := by
  intro r
  induction r with
  | zero => intro i st h; exact h
  | succ k ih =>
    intro i st h
    unfold ucLoop
    by_cases he : i = cols.length
    · rw [if_pos he]
      by_cases hs : st.seenThis
      · rw [if_pos hs]; exact h
      · rw [if_neg hs]
        exact ih _ _ (ucBody_inv bound cptr parents i cptr _ h)
    · rw [if_neg he]
      exact ih _ _ (ucBody_inv bound cptr parents i (cols.getD i none) st h)

/-- Shrinking only ever lowers the mapping size. -/
theorem shrinkMappingSize_le (m : Int → Int) :
    ∀ n : Nat, shrinkMappingSize m n ≤ n := by
  intro n
  induction n using Nat.strong_induction_on with
  | _ n ih =>
    match n with
    | 0 => exact Nat.le_refl _
    | 1 => exact Nat.le_refl _
    | k + 2 =>
      unfold shrinkMappingSize
      split
      · exact Nat.le_trans (ih (k + 1) (by omega)) (by omega)
      · exact Nat.le_refl _

/-- After updateColumns the mapping is good, negative keys stay zero,
and the newMapping store is untouched. -/
theorem updateColumns_good (g : Graph) (hzn : ZeroNegF g.mapping) :
    GoodMapping g.updateColumns ∧ ZeroNegF g.updateColumns.mapping ∧
      g.updateColumns.newMapping = g.newMapping := by
  have h0 : UCInv (2 * (g.newColumns.length + g.numParents))
      ⟨[], clearMapping g.mapping (2 * (g.newColumns.length + g.numParents)),
       0, false, g.commitIndex, true⟩ := by
    refine ⟨by simp, ?_, clearMapping_neg g.mapping hzn _⟩
    intro i hi hpos
    dsimp only at hpos
    rw [clearMapping_lt g.mapping _ i hi] at hpos
    omega
  have hF := ucLoop_inv g.newColumns (commitPtr g) (interestingParents g)
    (2 * (g.newColumns.length + g.numParents)) (g.newColumns.length + 1) 0 _ h0
  have hmap : g.updateColumns.mapping = (ucRun g).mapping := rfl
  have hsz : g.updateColumns.mappingSize =
      shrinkMappingSize (ucRun g).mapping (2 * (g.newColumns.length + g.numParents)) := rfl
  refine ⟨?_, ?_, rfl⟩
  · intro i hi hpos
    rw [hmap] at hpos ⊢
    rw [hsz] at hi
    exact hF.2.1 i (Nat.lt_of_lt_of_le hi (shrinkMappingSize_le _ _)) hpos
  · intro k hk
    rw [hmap]
    exact hF.2.2 k hk

/-! ### Renderer invariant: the collapsing transition -/

/-- A horizontal-run read is either untouched or a run segment: the
target value at a key between the run start and its stop bound. -/
theorem hrun_cases (t : Int) :
    ∀ (r : Nat) (j stop : Int) (m : Int → Int) (k : Int),
      hrun t r j stop m k = m k ∨
        (hrun t r j stop m k = t ∧ j ≤ k ∧ k < stop) := by
  intro r
  induction r with
  | zero => intro j stop m k; exact Or.inl rfl
  | succ q ih =>
    intro j stop m k
    unfold hrun
    by_cases hj : j < stop
    · rw [if_pos hj]
      rcases ih (j + 2) stop (fupd m j t) k with h1 | ⟨h1, h2, h3⟩
      · rw [h1]
        unfold fupd
        by_cases hk : k = j
        · subst hk
          exact Or.inr ⟨by simp, le_refl _, hj⟩
        · rw [if_neg hk]
          exact Or.inl rfl
      · exact Or.inr ⟨h1, by omega, h3⟩
    · rw [if_neg hj]
      exact Or.inl rfl

/-- With a good input mapping the collapsing routing loop never aborts
on the moved-right check: the check condition never holds. -/
theorem collapseLoop_ne_mappingRight (oldM : Int → Int) (n : Nat) (hgood : GoodM oldM n) :
    ∀ (r i : Nat) (st : CollapseSt), r + i = n →
      collapseLoop oldM n r i st ≠ .error .mappingRight := by
  intro r
  induction r with
  | zero => intro i st h; simp [collapseLoop]
  | succ q ih =>
    intro i st h
    unfold collapseLoop
    by_cases hc1 : oldM i < 0
    · rw [if_pos hc1]
      exact ih (i + 1) st (by omega)
    · rw [if_neg hc1]
      have hc2 : ¬((i : Int) < oldM i * 2) := by
        have := hgood i (by omega) (by omega)
        omega
      rw [if_neg hc2]
      by_cases hc3 : oldM i * 2 = (i : Int)
      · rw [if_pos hc3]
        by_cases hc4 : st.newMapping i ≠ -1
        · rw [if_pos hc4]; simp
        · rw [if_neg hc4]
          exact ih (i + 1) _ (by omega)
      · rw [if_neg hc3]
        by_cases hc5 : st.newMapping ((i : Int) - 1) < 0
        · rw [if_pos hc5]
          by_cases hc6 : st.horizontalEdge = -1
          · rw [if_pos hc6]
            exact ih (i + 1) _ (by omega)
          · rw [if_neg hc6]
            exact ih (i + 1) _ (by omega)
        · rw [if_neg hc5]
          by_cases hc7 : st.newMapping ((i : Int) - 1) = oldM i
          · rw [if_pos hc7]
            exact ih (i + 1) st (by omega)
          · rw [if_neg hc7]
            by_cases hc8 : st.newMapping ((i : Int) - 1) ≤ oldM i ∨
                0 ≤ st.newMapping ((i : Int) - 2) ∨ st.newMapping ((i : Int) - 3) ≠ oldM i
            · rw [if_pos hc8]; simp
            · rw [if_neg hc8]
              exact ih (i + 1) _ (by omega)

/-- The collapsing routing loop preserves goodness, leftward-only
sourcing and zero negative keys of the next-row mapping. -/
theorem collapseLoop_ok (oldM : Int → Int) (n : Nat) (hgood : GoodM oldM n) :
    ∀ (r i : Nat) (st st' : CollapseSt), r + i = n →
      GoodM st.newMapping n → SourceOk oldM n st.newMapping → ZeroNegF st.newMapping →
      collapseLoop oldM n r i st = .ok st' →
      GoodM st'.newMapping n ∧ SourceOk oldM n st'.newMapping ∧
        ZeroNegF st'.newMapping := by
  intro r
  induction r with
  | zero =>
    intro i st st' h hg hs hz hcl
    unfold collapseLoop at hcl
    injection hcl with h2
    subst h2
    exact ⟨hg, hs, hz⟩
  | succ q ih =>
    intro i st st' h hg hs hz hcl
    have hin : i < n := by omega
    unfold collapseLoop at hcl
    by_cases hc1 : oldM i < 0
    · rw [if_pos hc1] at hcl
      exact ih (i + 1) st st' (by omega) hg hs hz hcl
    · rw [if_neg hc1] at hcl
      have hc2 : ¬((i : Int) < oldM i * 2) := by
        have := hgood i hin (by omega)
        omega
      rw [if_neg hc2] at hcl
      by_cases hc3 : oldM i * 2 = (i : Int)
      · rw [if_pos hc3] at hcl
        by_cases hc4 : st.newMapping i ≠ -1
        · rw [if_pos hc4] at hcl
          exact absurd hcl (by simp)
        · rw [if_neg hc4] at hcl
          refine ih (i + 1) _ st' (by omega) ?_ ?_ ?_ hcl
          · intro j hj hpos
            dsimp only [fupd] at hpos ⊢
            by_cases he : (j : Int) = (i : Int)
            · rw [if_pos he] at hpos ⊢
              omega
            · rw [if_neg he] at hpos ⊢
              exact hg j hj hpos
          · intro j hj hpos
            dsimp only [fupd] at hpos ⊢
            by_cases he : (j : Int) = (i : Int)
            · rw [if_pos he]
              have hji : j = i := by omega
              exact ⟨i, hin, rfl, by omega⟩
            · rw [if_neg he] at hpos ⊢
              exact hs j hj hpos
          · intro k hk
            dsimp only [fupd]
            rw [if_neg (show ¬(k = (i : Int)) by omega)]
            exact hz k hk
      · rw [if_neg hc3] at hcl
        have hti : oldM i * 2 < (i : Int) := by omega
        have hipos : 1 ≤ i := by
          have : 0 ≤ oldM i := by omega
          omega
        by_cases hc5 : st.newMapping ((i : Int) - 1) < 0
        · rw [if_pos hc5] at hcl
          have hmove : ∀ j : Nat, j < n →
              0 ≤ fupd st.newMapping ((i : Int) - 1) (oldM i) j →
              2 * fupd st.newMapping ((i : Int) - 1) (oldM i) j ≤ (j : Int) := by
            intro j hj hpos
            dsimp only [fupd] at hpos ⊢
            by_cases he : (j : Int) = (i : Int) - 1
            · rw [if_pos he] at hpos ⊢
              omega
            · rw [if_neg he] at hpos ⊢
              exact hg j hj hpos
          have hmoveS : ∀ j : Nat, j < n →
              0 ≤ fupd st.newMapping ((i : Int) - 1) (oldM i) j →
              ∃ i2 : Nat, i2 < n ∧ oldM i2 = fupd st.newMapping ((i : Int) - 1) (oldM i) j ∧
                j ≤ i2 := by
            intro j hj hpos
            dsimp only [fupd] at hpos ⊢
            by_cases he : (j : Int) = (i : Int) - 1
            · rw [if_pos he]
              exact ⟨i, hin, rfl, by omega⟩
            · rw [if_neg he] at hpos ⊢
              exact hs j hj hpos
          have hmoveZ : ZeroNegF (fupd st.newMapping ((i : Int) - 1) (oldM i)) := by
            intro k hk
            dsimp only [fupd]
            rw [if_neg (show ¬(k = (i : Int) - 1) by omega)]
            exact hz k hk
          by_cases hc6 : st.horizontalEdge = -1
          · rw [if_pos hc6] at hcl
            refine ih (i + 1) _ st' (by omega) ?_ ?_ ?_ hcl
            · intro j hj hpos
              dsimp only at hpos ⊢
              rcases hrun_cases (oldM i) n (oldM i * 2 + 3) ((i : Int) - 2)
                  (fupd st.newMapping ((i : Int) - 1) (oldM i)) j with hr1 | ⟨hr1, hr2, hr3⟩
              · rw [hr1] at hpos ⊢
                exact hmove j hj hpos
              · rw [hr1]
                omega
            · intro j hj hpos
              dsimp only at hpos ⊢
              rcases hrun_cases (oldM i) n (oldM i * 2 + 3) ((i : Int) - 2)
                  (fupd st.newMapping ((i : Int) - 1) (oldM i)) j with hr1 | ⟨hr1, hr2, hr3⟩
              · rw [hr1] at hpos ⊢
                exact hmoveS j hj hpos
              · rw [hr1]
                exact ⟨i, hin, rfl, by omega⟩
            · intro k hk
              dsimp only
              rcases hrun_cases (oldM i) n (oldM i * 2 + 3) ((i : Int) - 2)
                  (fupd st.newMapping ((i : Int) - 1) (oldM i)) k with hr1 | ⟨hr1, hr2, hr3⟩
              · rw [hr1]
                exact hmoveZ k hk
              · exfalso
                omega
          · rw [if_neg hc6] at hcl
            refine ih (i + 1) _ st' (by omega) ?_ ?_ ?_ hcl
            · exact hmove
            · exact hmoveS
            · exact hmoveZ
        · rw [if_neg hc5] at hcl
          by_cases hc7 : st.newMapping ((i : Int) - 1) = oldM i
          · rw [if_pos hc7] at hcl
            exact ih (i + 1) st st' (by omega) hg hs hz hcl
          · rw [if_neg hc7] at hcl
            by_cases hc8 : st.newMapping ((i : Int) - 1) ≤ oldM i ∨
                0 ≤ st.newMapping ((i : Int) - 2) ∨ st.newMapping ((i : Int) - 3) ≠ oldM i
            · rw [if_pos hc8] at hcl
              exact absurd hcl (by simp)
            · rw [if_neg hc8] at hcl
              push_neg at hc8
              obtain ⟨hg1, hg2, hg3⟩ := hc8
              have hige2 : 2 ≤ i := by
                by_contra hlt
                have hi1 : i = 1 := by omega
                have : st.newMapping ((i : Int) - 2) = 0 := by
                  apply hz
                  omega
                omega
              have htle : oldM i * 2 ≤ (i : Int) - 2 := by
                by_cases h3 : 0 ≤ (i : Int) - 3
                · have h3n : ((i - 3 : Nat) : Int) = (i : Int) - 3 := by omega
                  have := hg (i - 3) (by omega)
                  rw [h3n] at this
                  rw [hg3] at this
                  have h4 := this (by omega)
                  omega
                · have : st.newMapping ((i : Int) - 3) = 0 := by
                    apply hz
                    omega
                  omega
              refine ih (i + 1) _ st' (by omega) ?_ ?_ ?_ hcl
              · intro j hj hpos
                dsimp only [fupd] at hpos ⊢
                by_cases he : (j : Int) = (i : Int) - 2
                · rw [if_pos he] at hpos ⊢
                  omega
                · rw [if_neg he] at hpos ⊢
                  exact hg j hj hpos
              · intro j hj hpos
                dsimp only [fupd] at hpos ⊢
                by_cases he : (j : Int) = (i : Int) - 2
                · rw [if_pos he]
                  exact ⟨i, hin, rfl, by omega⟩
                · rw [if_neg he] at hpos ⊢
                  exact hs j hj hpos
              · intro k hk
                dsimp only [fupd]
                rw [if_neg (show ¬(k = (i : Int) - 2) by omega)]
                exact hz k hk

/-- The output loop of the collapsing row only erases entries: each
key reads its input value or −1, and negative keys are untouched. -/
theorem collapseOut_nm (he ht : Int) :
    ∀ (r i : Nat) (st : COutSt) (k : Int),
      (collapseOut he ht r i st).nm k = st.nm k ∨
        ((collapseOut he ht r i st).nm k = -1 ∧ 0 ≤ k) := by
  intro r
  induction r with
  | zero => intro i st k; exact Or.inl rfl
  | succ q ih =>
    intro i st k
    have hstep : ∀ st2 : COutSt, st2.nm = st.nm ∨ st2.nm = fupd st.nm i (-1) →
        ((collapseOut he ht q (i + 1) st2).nm k = st.nm k ∨
          ((collapseOut he ht q (i + 1) st2).nm k = -1 ∧ 0 ≤ k)) := by
      intro st2 hnm
      rcases ih (i + 1) st2 k with h1 | h2
      · rw [h1]
        rcases hnm with h3 | h3
        · rw [h3]; exact Or.inl rfl
        · rw [h3]
          dsimp only [fupd]
          by_cases he2 : k = (i : Int)
          · rw [if_pos he2]
            exact Or.inr ⟨rfl, by omega⟩
          · rw [if_neg he2]
            exact Or.inl rfl
      · exact Or.inr h2
    unfold collapseOut
    dsimp only
    split
    · exact hstep _ (Or.inl rfl)
    · split
      · exact hstep _ (Or.inl rfl)
      · split
        · refine hstep _ ?_
          dsimp only
          split
          · exact Or.inr rfl
          · exact Or.inl rfl
        · refine hstep _ ?_
          dsimp only
          split
          · exact Or.inr rfl
          · exact Or.inl rfl

/-- SameMaps composes. -/
theorem sameMaps_trans (a b c : Graph) (h1 : SameMaps a b) (h2 : SameMaps b c) :
    SameMaps a c :=
  ⟨h2.1.trans h1.1, h2.2.1.trans h1.2.1, h2.2.2.trans h1.2.2⟩

/-- Horizontal padding writes only to the output buffer. -/
theorem padHorizontally_maps (g : Graph) (n : Nat) : SameMaps g (g.padHorizontally n) := by
  unfold Graph.padHorizontally
  split
  · exact ⟨rfl, rfl, rfl⟩
  · exact ⟨rfl, rfl, rfl⟩

/-- The state transition writes only the state tags. -/
theorem updateState_maps (g : Graph) (s : GraphState) : SameMaps g (g.updateState s) :=
  ⟨rfl, rfl, rfl⟩

/-- The collapsing-row properties transfer along SameMaps. -/
theorem sameMaps_props (g0 g1 : Graph) (h : SameMaps g0 g1) (g : Graph)
    (hx : GoodMapping g0 ∧ ZeroNeg g0 ∧ LeftOnly g g0) :
    GoodMapping g1 ∧ ZeroNeg g1 ∧ LeftOnly g g1 := by
  obtain ⟨h1, h2, h3⟩ := h
  obtain ⟨hx1, ⟨hx2a, hx2b⟩, hx3⟩ := hx
  refine ⟨?_, ⟨?_, ?_⟩, ?_⟩
  · intro i hi hpos
    rw [h1] at hpos ⊢
    rw [h3] at hi
    exact hx1 i hi hpos
  · intro k hk
    rw [h1]
    exact hx2a k hk
  · intro k hk
    rw [h2]
    exact hx2b k hk
  · intro j hj hpos
    rw [h1] at hpos ⊢
    rw [h3] at hj
    exact hx3 j hj hpos

/-- A renderer state assembled from the routed-and-erased mapping of a
collapsing row, with the old mapping swapped in as the next newMapping
and a shrunk size, is good, zero at negative keys, and moved only
leftward relative to the pre-row state. -/
theorem collapseMaps_props (g gX : Graph) (st : CollapseSt)
    (hG : GoodM st.newMapping g.mappingSize)
    (hS : SourceOk g.mapping g.mappingSize st.newMapping)
    (hZ : ZeroNegF st.newMapping) (hzm : ZeroNegF g.mapping)
    (msz : Nat) (hle : msz ≤ g.mappingSize)
    (hm : gX.mapping = (collapseOut st.horizontalEdge st.horizontalEdgeTarget msz 0
      ⟨"", st.newMapping, false⟩).nm)
    (hn : gX.newMapping = g.mapping) (hsz : gX.mappingSize = msz) :
    GoodMapping gX ∧ ZeroNeg gX ∧ LeftOnly g gX := by
  refine ⟨?_, ⟨?_, ?_⟩, ?_⟩
  · intro i hi hpos
    rw [hm] at hpos ⊢
    rw [hsz] at hi
    rcases collapseOut_nm st.horizontalEdge st.horizontalEdgeTarget msz 0
        ⟨"", st.newMapping, false⟩ i with h1 | ⟨h1, _⟩
    · rw [h1] at hpos ⊢
      exact hG i (by omega) hpos
    · rw [h1] at hpos
      omega
  · intro k hk
    rw [hm]
    rcases collapseOut_nm st.horizontalEdge st.horizontalEdgeTarget msz 0
        ⟨"", st.newMapping, false⟩ k with h1 | ⟨h1, h2⟩
    · rw [h1]
      exact hZ k hk
    · omega
  · intro k hk
    rw [hn]
    exact hzm k hk
  · intro j hj hpos
    rw [hm] at hpos ⊢
    rw [hsz] at hj
    rcases collapseOut_nm st.horizontalEdge st.horizontalEdgeTarget msz 0
        ⟨"", st.newMapping, false⟩ j with h1 | ⟨h1, _⟩
    · rw [h1] at hpos ⊢
      exact hS j (by omega) hpos
    · rw [h1] at hpos
      omega

/-- With a good mapping the collapsing row never aborts with the
moved-right panic. -/
theorem outputCollapsingLine_ne (g : Graph) (hg : GoodMapping g) :
    g.outputCollapsingLine ≠ .error .mappingRight := by
  intro h
  unfold Graph.outputCollapsingLine at h
  rcases hcl : collapseLoop g.mapping g.mappingSize g.mappingSize 0
      ⟨clearMapping g.newMapping g.mappingSize, -1, -1⟩ with e | st
  · simp only [hcl] at h
    injection h with he
    subst he
    exact collapseLoop_ne_mappingRight g.mapping g.mappingSize hg g.mappingSize 0 _
      (by omega) hcl
  · simp only [hcl] at h
    split at h <;> split at h <;> exact absurd h (by simp)

/-- A completed collapsing row yields a good state that is zero at
negative keys and whose occupied entries moved only leftward. -/
theorem outputCollapsingLine_ok (g g2 : Graph) (hg : GoodMapping g) (hz : ZeroNeg g)
    (h : g.outputCollapsingLine = .ok g2) :
    GoodMapping g2 ∧ ZeroNeg g2 ∧ LeftOnly g g2 := by
  unfold Graph.outputCollapsingLine at h
  rcases hcl : collapseLoop g.mapping g.mappingSize g.mappingSize 0
      ⟨clearMapping g.newMapping g.mappingSize, -1, -1⟩ with e | st
  · simp only [hcl] at h
    exact Except.noConfusion h
  · have hG0 : GoodM (CollapseSt.newMapping
        ⟨clearMapping g.newMapping g.mappingSize, -1, -1⟩) g.mappingSize := by
      intro i hi hpos
      dsimp only at hpos
      rw [clearMapping_lt g.newMapping _ i hi] at hpos
      omega
    have hS0 : SourceOk g.mapping g.mappingSize (CollapseSt.newMapping
        ⟨clearMapping g.newMapping g.mappingSize, -1, -1⟩) := by
      intro j hj hpos
      dsimp only at hpos
      rw [clearMapping_lt g.newMapping _ j hj] at hpos
      omega
    have hZ0 : ZeroNegF (CollapseSt.newMapping
        ⟨clearMapping g.newMapping g.mappingSize, -1, -1⟩) :=
      clearMapping_neg g.newMapping hz.2 g.mappingSize
    obtain ⟨hG, hS, hZ⟩ := collapseLoop_ok g.mapping g.mappingSize hg g.mappingSize 0 _ st
      (by omega) hG0 hS0 hZ0 hcl
    simp only [hcl] at h
    split at h
    · split at h
      · injection h with h2
        subst h2
        refine sameMaps_props _ _
          (sameMaps_trans _ _ _ (padHorizontally_maps _ _) (updateState_maps _ _)) g ?_
        exact collapseMaps_props g _ st hG hS hZ hz.1 _ (by omega) rfl rfl rfl
      · injection h with h2
        subst h2
        refine sameMaps_props _ _ (padHorizontally_maps _ _) g ?_
        exact collapseMaps_props g _ st hG hS hZ hz.1 _ (by omega) rfl rfl rfl
    · split at h
      · injection h with h2
        subst h2
        refine sameMaps_props _ _
          (sameMaps_trans _ _ _ (padHorizontally_maps _ _) (updateState_maps _ _)) g ?_
        exact collapseMaps_props g _ st hG hS hZ hz.1 _ (by omega) rfl rfl rfl
      · injection h with h2
        subst h2
        refine sameMaps_props _ _ (padHorizontally_maps _ _) g ?_
        exact collapseMaps_props g _ st hG hS hZ hz.1 _ (by omega) rfl rfl rfl

/-- The reachability invariant transfers along SameMaps. -/
theorem sameMaps_inv (g0 g1 : Graph) (h : SameMaps g0 g1)
    (hg : GoodMapping g0) (hz : ZeroNeg g0) : GoodMapping g1 ∧ ZeroNeg g1 := by
  obtain ⟨h1, h2, h3⟩ := h
  refine ⟨?_, ?_, ?_⟩
  · intro i hi hpos
    rw [h1] at hpos ⊢
    rw [h3] at hi
    exact hg i hi hpos
  · intro k hk
    rw [h1]
    exact hz.1 k hk
  · intro k hk
    rw [h2]
    exact hz.2 k hk

/-- Horizontal padding leaves the transition mapping unchanged. -/
theorem padHorizontally_mapping (g : Graph) (n : Nat) :
    (g.padHorizontally n).mapping = g.mapping := by
  unfold Graph.padHorizontally
  split
  · rfl
  · rfl

/-- Horizontal padding leaves the next mapping unchanged. -/
theorem padHorizontally_newMapping (g : Graph) (n : Nat) :
    (g.padHorizontally n).newMapping = g.newMapping := by
  unfold Graph.padHorizontally
  split
  · rfl
  · rfl

/-- Horizontal padding leaves the mapping size unchanged. -/
theorem padHorizontally_mappingSize (g : Graph) (n : Nat) :
    (g.padHorizontally n).mappingSize = g.mappingSize := by
  unfold Graph.padHorizontally
  split
  · rfl
  · rfl

/-- The state transition leaves the transition mapping unchanged. -/
theorem updateState_mapping (g : Graph) (s : GraphState) :
    (g.updateState s).mapping = g.mapping := rfl

/-- The state transition leaves the next mapping unchanged. -/
theorem updateState_newMapping (g : Graph) (s : GraphState) :
    (g.updateState s).newMapping = g.newMapping := rfl

/-- The state transition leaves the mapping size unchanged. -/
theorem updateState_mappingSize (g : Graph) (s : GraphState) :
    (g.updateState s).mappingSize = g.mappingSize := rfl

/-- The padding row writes only to the buffer. -/
theorem outputPaddingLine_maps (g : Graph) : SameMaps g g.outputPaddingLine :=
  ⟨by simp only [Graph.outputPaddingLine, padHorizontally_mapping],
   by simp only [Graph.outputPaddingLine, padHorizontally_newMapping],
   by simp only [Graph.outputPaddingLine, padHorizontally_mappingSize]⟩

/-- The skip row writes only the buffer and the state tags. -/
theorem outputSkipLine_maps (g : Graph) : SameMaps g g.outputSkipLine := by
  unfold Graph.outputSkipLine
  dsimp only
  split
  · exact ⟨by simp only [updateState_mapping, padHorizontally_mapping],
      by simp only [updateState_newMapping, padHorizontally_newMapping],
      by simp only [updateState_mappingSize, padHorizontally_mappingSize]⟩
  · exact ⟨by simp only [updateState_mapping, padHorizontally_mapping],
      by simp only [updateState_newMapping, padHorizontally_newMapping],
      by simp only [updateState_mappingSize, padHorizontally_mappingSize]⟩

/-- The commit row writes only the buffer and the state tags. -/
theorem outputCommitLine_maps (g : Graph) : SameMaps g g.outputCommitLine := by
  unfold Graph.outputCommitLine
  dsimp only
  split
  · exact ⟨by simp only [updateState_mapping, padHorizontally_mapping],
      by simp only [updateState_newMapping, padHorizontally_newMapping],
      by simp only [updateState_mappingSize, padHorizontally_mappingSize]⟩
  · split
    · exact ⟨by simp only [updateState_mapping, padHorizontally_mapping],
        by simp only [updateState_newMapping, padHorizontally_newMapping],
        by simp only [updateState_mappingSize, padHorizontally_mappingSize]⟩
    · exact ⟨by simp only [updateState_mapping, padHorizontally_mapping],
        by simp only [updateState_newMapping, padHorizontally_newMapping],
        by simp only [updateState_mappingSize, padHorizontally_mappingSize]⟩

/-- A completed pre-commit row writes only the buffer, the expansion
row counter and the state tags. -/
theorem outputPreCommitLine_maps (g g2 : Graph) (h : g.outputPreCommitLine = .ok g2) :
    SameMaps g g2 := by
  unfold Graph.outputPreCommitLine at h
  split at h
  · exact Except.noConfusion h
  · dsimp only at h
    split at h
    · exact Except.noConfusion h
    · split at h
      · injection h with h2
        subst h2
        exact ⟨by simp only [updateState_mapping, padHorizontally_mapping],
          by simp only [updateState_newMapping, padHorizontally_newMapping],
          by simp only [updateState_mappingSize, padHorizontally_mappingSize]⟩
      · injection h with h2
        subst h2
        exact ⟨by simp only [padHorizontally_mapping],
          by simp only [padHorizontally_newMapping],
          by simp only [padHorizontally_mappingSize]⟩

/-- A completed post-merge row writes only the buffer and the state
tags. -/
theorem outputPostMergeLine_maps (g g2 : Graph) (h : g.outputPostMergeLine = .ok g2) :
    SameMaps g g2 := by
  unfold Graph.outputPostMergeLine at h
  rcases hpm : postMergeCols g (g.numColumns + 1) 0 ⟨"", false, 0⟩ with e | st
  · simp only [hpm] at h
    exact Except.noConfusion h
  · simp only [hpm] at h
    split at h
    · injection h with h2
      subst h2
      exact ⟨by simp only [updateState_mapping, padHorizontally_mapping],
        by simp only [updateState_newMapping, padHorizontally_newMapping],
        by simp only [updateState_mappingSize, padHorizontally_mappingSize]⟩
    · injection h with h2
      subst h2
      exact ⟨by simp only [updateState_mapping, padHorizontally_mapping],
        by simp only [updateState_newMapping, padHorizontally_newMapping],
        by simp only [updateState_mappingSize, padHorizontally_mappingSize]⟩

/-- Installing a commit leaves a good state: updateColumns rebuilds
the mapping good and moves the old newMapping through unchanged. -/
theorem update_inv (g : Graph) (c : Commit) (hz : ZeroNeg g) :
    GoodMapping (g.update c) ∧ ZeroNeg (g.update c) := by
  have h := updateColumns_good
    { g with commit := c,
             numParents := (interestingParents { g with commit := c }).length,
             prevCommitIndex := g.commitIndex } hz.1
  refine ⟨h.1, h.2.1, ?_⟩
  have h22 : (g.update c).newMapping = g.newMapping := h.2.2
  rw [h22]
  exact hz.2

/-- Every reachable renderer state has a good mapping and both mapping
stores zero at negative keys. -/
theorem reachable_inv (cs : String → Option Commit) (g : Graph) (h : Reachable cs g) :
    GoodMapping g ∧ ZeroNeg g := by
  induction h with
  | init =>
    refine ⟨?_, ?_, ?_⟩
    · intro i hi hpos
      exact absurd hi (Nat.not_lt_zero _)
    · intro k hk
      rfl
    · intro k hk
      rfl
  | step g c hg ih => exact update_inv g c ih.2
  | row g g2 b hg hnl ih =>
    cases hstate : g.state
    · simp only [Graph.nextLine, hstate] at hnl
      injection hnl with h1
      injection h1 with ha hb
      exact ha ▸ sameMaps_inv _ _ (outputPaddingLine_maps g) ih.1 ih.2
    · simp only [Graph.nextLine, hstate] at hnl
      injection hnl with h1
      injection h1 with ha hb
      exact ha ▸ sameMaps_inv _ _ (outputSkipLine_maps g) ih.1 ih.2
    · simp only [Graph.nextLine, hstate] at hnl
      rcases hpre : g.outputPreCommitLine with e | gp
      · simp [hpre] at hnl
      · simp only [hpre] at hnl
        injection hnl with h1
        injection h1 with ha hb
        exact ha ▸ sameMaps_inv _ _ (outputPreCommitLine_maps g gp hpre) ih.1 ih.2
    · simp only [Graph.nextLine, hstate] at hnl
      injection hnl with h1
      injection h1 with ha hb
      exact ha ▸ sameMaps_inv _ _ (outputCommitLine_maps g) ih.1 ih.2
    · simp only [Graph.nextLine, hstate] at hnl
      rcases hpm : g.outputPostMergeLine with e | gp
      · simp [hpm] at hnl
      · simp only [hpm] at hnl
        injection hnl with h1
        injection h1 with ha hb
        exact ha ▸ sameMaps_inv _ _ (outputPostMergeLine_maps g gp hpm) ih.1 ih.2
    · simp only [Graph.nextLine, hstate] at hnl
      rcases hoc : g.outputCollapsingLine with e | gc
      · simp [hoc] at hnl
      · simp only [hoc] at hnl
        injection hnl with h1
        injection h1 with ha hb
        have hok := outputCollapsingLine_ok g gc ih.1 ih.2 hoc
        exact ha ▸ ⟨hok.1, hok.2.1⟩

/-- A completed driver run ends in a reachable state. -/
theorem runCmds_reachable (cs : String → Option Commit) (g : Graph) (hg : Reachable cs g) :
    ∀ cmds : List RCmd, runCmdsOk g cmds = true → Reachable cs (runCmdsD g cmds) := by
  intro cmds
  induction cmds generalizing g hg with
  | nil =>
    intro hok
    exact hg
  | cons c rest ih =>
    intro hok
    rcases hc : runCmd g c with e | g1
    · rw [runCmdsOk] at hok
      rw [runCmds] at hok
      rw [hc] at hok
      simp at hok
    · have hg1 : Reachable cs g1 := by
        rcases c with c2 | _
        · rw [runCmd] at hc
          injection hc with h2
          exact h2 ▸ Reachable.step g c2 hg
        · rw [runCmd] at hc
          rcases hnl : g.nextLine with e | p
          · rw [hnl] at hc
            exact Except.noConfusion hc
          · rw [hnl] at hc
            injection hc with h2
            exact h2 ▸ Reachable.row g p.1 p.2 hg hnl
      have hok1 : runCmdsOk g1 rest = true := by
        simp only [runCmdsOk, runCmds, hc] at hok ⊢
        exact hok
      have h1 : runCmds g (c :: rest) = runCmds g1 rest := by
        rw [runCmds, hc]
      rcases hrr : runCmds g1 rest with e | gF
      · rw [runCmdsOk, hrr] at hok1
        simp at hok1
      · have hd : runCmdsD g (c :: rest) = gF := by
          rw [runCmdsD, h1, hrr]
        have hd1 : runCmdsD g1 rest = gF := by
          rw [runCmdsD, hrr]
        rw [hd, ← hd1]
        exact ih g1 hg1 hok1

/-- C9, counterexample: it is not the case that at every reachable
collapsing state each active line moves at most one column (two
mapping positions) left in the emitted row. In the octopus trace the
row routes the entry at position 8 into position 3 and then draws it
as a horizontal edge, so the surviving occupied position 3 of the new
mapping has no source within positions 3..5 of the old mapping. -/
theorem collapsing_moves_refuted : ¬claimCollapsingMoves := by
  intro hcl
  have hreach : Reachable cexCommits gBad :=
    runCmds_reachable cexCommits (newGraph cexCommits) Reachable.init traceCmds (by decide)
  have h := hcl cexCommits gBad hreach (by decide)
  have h3 := h.2.2 (by decide)
  obtain ⟨i, hi, hv, hj1, hj2⟩ := h3 3 (by decide) (by decide)
  interval_cases i
  · revert hv
    decide
  · revert hv
    decide
  · revert hv
    decide

/-- C9, amended: at every reachable state about to emit a collapsing
row, every occupied mapping entry targets a column at or left of its
position, the row never aborts on the moved-right check, and when the
row completes every occupied entry of the new mapping has a source
with the same target at or right of it — lines move only leftward,
but a horizontal edge can move a line several columns in one row. -/
theorem collapsing_moves_left (cs : String → Option Commit) (g : Graph)
    (hr : Reachable cs g) (hs : g.state = .collapsing) :
    GoodMapping g ∧ g.nextLine ≠ .error .mappingRight ∧
      (nextLineOk g = true → LeftOnly g (nextLineD g)) := by
  have hinv := reachable_inv cs g hr
  refine ⟨hinv.1, ?_, ?_⟩
  · intro hne
    simp only [Graph.nextLine, hs] at hne
    rcases hoc : g.outputCollapsingLine with e | gc
    · simp only [hoc] at hne
      injection hne with he
      subst he
      exact outputCollapsingLine_ne g hinv.1 hoc
    · simp only [hoc] at hne
      exact absurd hne (by simp)
  · intro hok
    rcases hoc : g.outputCollapsingLine with e | gc
    · simp only [nextLineOk, Graph.nextLine, hs, hoc] at hok
      exact Bool.noConfusion hok
    · have hd : nextLineD g = gc := by
        simp only [nextLineD, Graph.nextLine, hs, hoc]
      rw [hd]
      exact (outputCollapsingLine_ok g gc hinv.1 hinv.2 hoc).2.2

/-- Witness for the amended collapsing-row theorem: the octopus trace
state is reachable and collapsing, and the theorem applies to it. -/
theorem collapsing_moves_left_witness :
    GoodMapping gBad ∧ gBad.nextLine ≠ .error .mappingRight ∧
      (nextLineOk gBad = true → LeftOnly gBad (nextLineD gBad)) :=
  collapsing_moves_left cexCommits gBad
    (runCmds_reachable cexCommits (newGraph cexCommits) Reachable.init traceCmds (by decide))
    (by decide)

end Plz
